import Mathlib

/-!
# LDAP synchronizer plugin (`custom/ldap.go`)

A shallow embedding of the `Synchronizer` of `custom/ldap.go`: the connection
retry loop of `Start`, the two fetch functions, and the transactional commit
(`callback`, `writeData`, `writeModules`).

Go values are embedded as follows.

* A Go `error` result is an `Option` (`none` is `nil`) or an `Except`.
* A Go panic is an explicit outcome (`Go.panic`, `Res.panic`).
* A Go map that the code only inserts into and looks up is an association list
  (`Dict`); the order in which `range` visits a map is an explicit list.
* The packages the file imports (`storage`, `ast`, `ldap`, `encoding/json`) are
  not part of the source tree.  What the synchronizer needs of them is either
  a parameter (`unmarshal`, `parse`, `compile`, `dial`) or a definition whose
  comment says which behaviour is assumed.
-/

namespace Ldap

/-! ## JSON values and the store -/

/-- A decoded JSON value (`interface{}` as produced by `json.Unmarshal`): a
scalar, a sequence, or a mapping.  A mapping is a finite map from keys to
values, kept extensionally as a lookup function.  The payload of a number is
never inspected by the synchronizer. -/
inductive Value where
  | null : Value
  | bool (b : Bool) : Value
  | num (n : Int) : Value
  | str (s : String) : Value
  | arr (xs : List Value) : Value
  | obj (fields : String → Option Value) : Value

/-- A parsed storage path: the list of its segments. -/
abbrev Path := List String

/-- The empty mapping `map[string]interface{}{}`. -/
def emptyObj : Value := Value.obj (fun _ => none)

/-- Whether a value is a mapping (the Go type test
`node.(map[string]interface{})`). -/
def Value.isObj : Value → Bool
  | Value.obj _ => true
  | _ => false

/-- Set one key of a mapping. -/
def setKey (f : String → Option Value) (k : String) (v : Value) : String → Option Value :=
  fun k' => if k' = k then some v else f k'

/-- Errors of the store. -/
inductive StoreErr where
  | notFound : StoreErr
  | writeConflict (path : Path) : StoreErr
  | rootMustBeObject : StoreErr
  deriving DecidableEq, Repr

/-- The value of a decimal digit. -/
def digitValue (c : Char) : Option Nat :=
  if '0' ≤ c ∧ c ≤ '9' then some (c.toNat - '0'.toNat) else none

/-- The number written by a list of decimal digits, after the digits read so
far. -/
def parseDigits : List Char → Nat → Option Nat
  | [], acc => some acc
  | c :: cs, acc =>
    match digitValue c with
    | some n => parseDigits cs (10 * acc + n)
    | none => none

/-- Go's `strconv.Atoi`: an optional sign and at least one decimal digit.  (A
number too large for an `int` is an error in Go; as an index it is out of range
here, which the store reports in the same way.) -/
def Atoi (s : String) : Option Int :=
  match s.data with
  | [] => none
  | c :: cs =>
    if c = '+' then (if cs = [] then none else (parseDigits cs 0).map Int.ofNat)
    else if c = '-' then
      (if cs = [] then none else (parseDigits cs 0).map fun n => - Int.ofNat n)
    else (parseDigits (c :: cs) 0).map Int.ofNat

/-- Modelled from the spec: the index check of the store for a path segment
below a sequence (`ValidateArrayIndex`): the segment must be an integer within
the bounds of the sequence. -/
def ValidateArrayIndex (xs : List Value) (s : String) : Option Nat :=
  match Atoi s with
  | some n => if 0 ≤ n ∧ n < (xs.length : Int) then some n.toNat else none
  | none => none

/-- Modelled from the spec: `Store.Read` of the storage collaborator, whose
implementation is not part of the source tree.  The document namespace is a
tree of JSON values addressed by paths: a path step descends through a mapping
by key and through a sequence by index, and any other step is not found. -/
def Read : Value → Path → Except StoreErr Value
  | d, [] => Except.ok d
  | Value.obj f, k :: ks =>
    match f k with
    | some c => Read c ks
    | none => Except.error StoreErr.notFound
  | Value.arr xs, k :: ks =>
    match ValidateArrayIndex xs k with
    | some pos =>
      match xs[pos]? with
      | some c => Read c ks
      | none => Except.error StoreErr.notFound
    | none => Except.error StoreErr.notFound
  | _, _ :: _ => Except.error StoreErr.notFound

/-- The additive write below the root.  The parent of the last segment must
exist.  When it is a mapping its key is set (created or overwritten); when it is
a sequence the value is inserted before the element at that index, the later
elements moving up by one, or appended for the segment `-`.  (Whether an index
equal to the length also appends differs between versions of the store;
`writeData` never gets there, since `MakeDir` has read the path before.) -/
def WriteAt : Value → String → Path → Value → Except StoreErr Value
  | Value.obj f, k, [], v => Except.ok (Value.obj (setKey f k v))
  | Value.obj f, k, k' :: ks, v =>
    match f k with
    | some c =>
      match WriteAt c k' ks v with
      | Except.ok c' => Except.ok (Value.obj (setKey f k c'))
      | Except.error e => Except.error e
    | none => Except.error StoreErr.notFound
  | Value.arr xs, k, [], v =>
    if k = "-" then Except.ok (Value.arr (xs ++ [v]))
    else
      match ValidateArrayIndex xs k with
      | some pos => Except.ok (Value.arr (xs.take pos ++ v :: xs.drop pos))
      | none => Except.error StoreErr.notFound
  | Value.arr xs, k, k' :: ks, v =>
    match ValidateArrayIndex xs k with
    | some pos =>
      match xs[pos]? with
      | some c =>
        match WriteAt c k' ks v with
        | Except.ok c' => Except.ok (Value.arr (xs.set pos c'))
        | Except.error e => Except.error e
      | none => Except.error StoreErr.notFound
    | none => Except.error StoreErr.notFound
  | _, _, _, _ => Except.error StoreErr.notFound

/-- Modelled from the spec: `Store.Write` with `storage.AddOp` (the spec's
`write(transaction, op=add, path, value)`), whose implementation is not part
of the source tree.  The parent of `path` must exist; below a mapping the value
at `path` is created or overwritten and content at other paths is untouched,
below a sequence the value is inserted.  Writing the root replaces the whole
namespace and needs a mapping. -/
def Write (d : Value) (path : Path) (v : Value) : Except StoreErr Value :=
  match path with
  | [] => if v.isObj then Except.ok v else Except.error StoreErr.rootMustBeObject
  | k :: ks => WriteAt d k ks v

/-- The recursion of `storage.MakeDir`, on the reversed path (so that the parent
`path[:len(path)-1]` is the tail). -/
def MakeDirRev (d : Value) : List String → Except StoreErr Value
  | [] => Except.ok d
  | k :: parent =>
    match Read d (k :: parent).reverse with
    | Except.error StoreErr.notFound =>
      match MakeDirRev d parent with
      | Except.error e => Except.error e
      | Except.ok d' => Write d' (k :: parent).reverse emptyObj
    | Except.error e => Except.error e
    | Except.ok node =>
      if node.isObj then Except.ok d
      else Except.error (StoreErr.writeConflict (k :: parent).reverse)

/-- Modelled from the spec: `storage.MakeDir` (the spec's
`ensurePathExists(transaction, path)`), whose implementation is not part of the
source tree.  It makes `path` an addressable location, that is a mapping: when
`path` is missing it first ensures the parent and then writes an empty mapping
at `path`; when `path` holds a mapping nothing is done; when it holds a scalar
or a sequence, which cannot hold further keys, the call fails with a write
conflict (`storage.WriteConflictError`).  The empty path needs nothing. -/
def MakeDir (d : Value) (path : Path) : Except StoreErr Value :=
  MakeDirRev d path.reverse

/-- The store behind `s.manager.Store`: the document namespace and the policy
namespace (policy id to raw source). -/
structure Db where
  data : Value
  policies : String → Option String

/-- Modelled from the spec: `Store.UpsertPolicy` (the spec's
`upsertPolicyModule(transaction, path, rawSource)`), whose implementation is
not part of the source tree: the raw source is stored under the id,
overwriting any prior module at that id. -/
def UpsertPolicy (txn : Db) (id : String) (raw : String) : Except StoreErr Db :=
  Except.ok { txn with policies := fun k => if k = id then some raw else txn.policies k }

/-! ## Go results -/

/-- The errors `Start` can surface. -/
inductive Error where
  | search (msg : String) : Error
  | decode (msg : String) : Error
  | store (e : StoreErr) : Error
  | compile (errs : List String) : Error
  deriving DecidableEq, Repr

/-- A Go call that either returns a value or panics. -/
inductive Go (α : Type) where
  | ret (a : α) : Go α
  | panic (msg : String) : Go α
  deriving DecidableEq, Repr

/-- The outcome of work done inside a transaction: the transaction as it stands
after the work, a returned error, or a panic. -/
inductive Res (α : Type) where
  | ok (a : α) : Res α
  | err (e : Error) : Res α
  | panic (msg : String) : Res α

/-- Whether the work returned without error. -/
def Res.isOk {α : Type} : Res α → Bool
  | Res.ok _ => true
  | _ => false

/-- The transaction state of a successful outcome. -/
def Res.toOption {α : Type} : Res α → Option α
  | Res.ok a => some a
  | _ => none

/-- A Go `map[string]T` that is only inserted into and looked up: an association
list without repeated keys. -/
abbrev Dict (α : Type) := List (String × α)

/-- The assignment `m[k] = v`. -/
def Dict.insert {α : Type} : Dict α → String → α → Dict α
  | [], k, v => [(k, v)]
  | (k', v') :: rest, k, v =>
    if k' = k then (k, v) :: rest else (k', v') :: Dict.insert rest k v

/-- The lookup `m[k]`. -/
def Dict.lookup {α : Type} : Dict α → String → Option α
  | [], _ => none
  | (k', v') :: rest, k => if k' = k then some v' else Dict.lookup rest k

/-! ## Paths -/

/-- Go's `strings.HasPrefix`. -/
def HasPrefix (s pre : String) : Bool := pre.data.isPrefixOf s.data

/-- Go's `strings.Split(s, "/")` on the characters of `s`. -/
def splitSlash : List Char → List (List Char)
  | [] => [[]]
  | c :: cs =>
    if c = '/' then [] :: splitSlash cs
    else
      match splitSlash cs with
      | [] => [[c]]
      | seg :: rest => (c :: seg) :: rest

/-- Modelled from the spec: `storage.ParsePath`, not part of the source tree.
A path string must begin with `/`; `/` alone is the root, and otherwise the
segments are what stands between the slashes. -/
def ParsePath (s : String) : Option Path :=
  match s.data with
  | [] => none
  | c :: cs =>
    if c ≠ '/' then none
    else if cs = [] then some []
    else some ((splitSlash cs).map String.mk)

/-- Modelled from the spec: `storage.MustParsePath`, not part of the source
tree: it panics with the string when `ParsePath` rejects it. -/
def MustParsePath (s : String) : Go Path :=
  match ParsePath s with
  | some p => Go.ret p
  | none => Go.panic s

/-! ## The commit: `writeData`, `writeModules`, `callback` -/

/-- The value of the loop variable `path` of `writeData` when it is handed to
`storage.MustParsePath` (lines 115-117). -/
def writeDataPath (path : String) : String :=
  if !HasPrefix path "/" then path ++ "/" else path

/-- The function `Synchronizer.writeData`.  `txn` is the store as the transaction
sees it; the list is the order in which `range data` visits the mapping. -/
def writeData (txn : Db) : List (String × Value) → Res Db
  | [] => Res.ok txn
  | (path, value) :: rest =>
    match MustParsePath (writeDataPath path) with
    | Go.panic msg => Res.panic msg
    | Go.ret p =>
      match MakeDir txn.data p with
      | Except.error e => Res.err (Error.store e)
      | Except.ok d₁ =>
        match Write d₁ p value with
        | Except.error e => Res.err (Error.store e)
        | Except.ok d₂ => writeData { txn with data := d₂ } rest

/-- A policy module file (`bundle.ModuleFile`); `M` is the type of parsed
modules (`*ast.Module`). -/
structure ModuleFile (M : Type) where
  Path : String
  Raw : String
  Parsed : M

/-- The first loop of `writeModules`: `modules[file.Path] = file.Parsed`. -/
def moduleSet {M : Type} (files : List (ModuleFile M)) : Dict M :=
  files.foldl (fun modules file => Dict.insert modules file.Path file.Parsed) []

/-- The second loop of `writeModules`: `UpsertPolicy(file.Path, file.Raw)`. -/
def upsertAll {M : Type} (txn : Db) : List (ModuleFile M) → Res Db
  | [] => Res.ok txn
  | file :: rest =>
    match UpsertPolicy txn file.Path file.Raw with
    | Except.error e => Res.err (Error.store e)
    | Except.ok txn' => upsertAll txn' rest

/-- The function `Synchronizer.writeModules`.  `compile` stands for
`ast.NewCompiler().WithPathConflictsCheck(storage.NonEmpty(store, txn))`
followed by `Compile(modules)`: it is given the document namespace the
transaction sees and the module set, and returns `compiler.Errors`
(`Failed()` is that the list is not empty). -/
def writeModules {M : Type} (compile : Value → Dict M → List String)
    (txn : Db) (files : List (ModuleFile M)) : Res Db :=
  let modules := moduleSet files
  let errors := compile txn.data modules
  if errors ≠ [] then Res.err (Error.compile errors)
  else upsertAll txn files

/-- Modelled from the spec: `storage.Txn`, not part of the source tree.  The
work runs on a write transaction opened on the store; when it returns an error
the transaction is aborted and the error returned, otherwise the transaction is
committed.  Nothing of an aborted (or never finished) transaction is visible;
opening and committing the transaction are taken to succeed.  The result is
what `Txn` returns (or a panic) and the store afterwards. -/
def Txn (db : Db) (f : Db → Res Db) : Go (Option Error) × Db :=
  match f db with
  | Res.ok txn => (Go.ret none, txn)
  | Res.err e => (Go.ret (some e), db)
  | Res.panic msg => (Go.panic msg, db)

/-- The function `Synchronizer.callback`, for the fields `s.data` (visited in the
order `visit`) and `s.files`. -/
def callback {M : Type} (compile : Value → Dict M → List String) (db : Db)
    (visit : List (String × Value)) (files : List (ModuleFile M)) :
    Go (Option Error) × Db :=
  Txn db (fun txn =>
    match writeData txn visit with
    | Res.ok txn' => writeModules compile txn' files
    | Res.err e => Res.err e
    | Res.panic msg => Res.panic msg)

/-! ## The directory and the fetch functions -/

/-- The constant `LDAP_DATA_OBJECTCLASS`. -/
def LDAP_DATA_OBJECTCLASS : String := "OPAData"
/-- The constant `LDAP_POLICY_OBJECTCLASS`. -/
def LDAP_POLICY_OBJECTCLASS : String := "OPAPolicy"
/-- The constant `LDAP_DATA_PATH_ATTRIBUTE`. -/
def LDAP_DATA_PATH_ATTRIBUTE : String := "path"
/-- The constant `LDAP_DATA_CONTENT_ATTRIBUTE`. -/
def LDAP_DATA_CONTENT_ATTRIBUTE : String := "jsonData"
/-- The constant `LDAP_POLICY_PATH_ATTRIBUTE`. -/
def LDAP_POLICY_PATH_ATTRIBUTE : String := "id"
/-- The constant `LDAP_POLICY_CONTENT_ATTRIBUTE`. -/
def LDAP_POLICY_CONTENT_ATTRIBUTE : String := "content"

/-- The struct `Config`. -/
structure Config where
  Addr : String
  BaseDN : String
  Username : String
  Password : String

/-- An attribute of a directory entry (`ldap.EntryAttribute`): its name and its
values.  Bytes and strings are both `String`. -/
structure Attribute where
  Name : String
  Values : List String

/-- A directory entry (`ldap.Entry`). -/
structure Entry where
  Attributes : List Attribute

/-- The accessor `Entry.GetAttributeValue` of the directory client: the first
value of the first attribute of that name, and the empty string when there is
none. -/
def Entry.GetAttributeValue (e : Entry) (name : String) : String :=
  match e.Attributes.find? (fun a => a.Name == name) with
  | some a => a.Values.headD ""
  | none => ""

/-- The accessor `Entry.GetRawAttributeValue`: the same value as bytes. -/
def Entry.GetRawAttributeValue (e : Entry) (name : String) : String :=
  e.GetAttributeValue name

/-- A dialled connection (`*ldap.Conn`), given by what its operations answer:
the error of `StartTLS` and of `Bind` (`none` is `nil`), and the result of
`Search` for a base DN and a filter. -/
structure Conn where
  StartTLS : Option String
  Bind : String → String → Option String
  Search : String → String → Except String (List Entry)

/-- The function `Synchronizer.connectToLdap`, given what `ldap.Dial` answers:
the named results `(conn, err)`. -/
def connectToLdap (dialled : Except String Conn) (config : Config) :
    Option Conn × Option String :=
  match dialled with
  | Except.error err => (none, some err)
  | Except.ok conn =>
    match conn.StartTLS with
    | some err => (some conn, some err)
    | none =>
      match conn.Bind config.Username config.Password with
      | some err => (some conn, some err)
      | none => (some conn, none)

/-- The function `Synchronizer.SearchFromLdap` on the field `s.conn`; a search
on a nil connection panics. -/
def SearchFromLdap (conn : Option Conn) (config : Config) (filter : String) :
    Go (Except String (List Entry)) :=
  match conn with
  | none => Go.panic "nil pointer dereference"
  | some c => Go.ret (c.Search config.BaseDN filter)

/-- The loop of `FetchDatasFromLdap` over `result.Entries`, from the mapping built
so far: the named results `(datas, err)` at the `return` that is reached. -/
def decodeEntries (unmarshal : String → Except String Value) :
    Dict Value → List Entry → Dict Value × Option Error
  | datas, [] => (datas, none)
  | datas, entry :: rest =>
    let path := entry.GetAttributeValue LDAP_DATA_PATH_ATTRIBUTE
    let content := entry.GetRawAttributeValue LDAP_DATA_CONTENT_ATTRIBUTE
    match unmarshal content with
    | Except.error err => (datas, some (Error.decode err))
    | Except.ok value => decodeEntries unmarshal (Dict.insert datas path value) rest

/-- The function `Synchronizer.FetchDatasFromLdap`; `unmarshal` is
`json.Unmarshal` into an `interface{}`. -/
def FetchDatasFromLdap (unmarshal : String → Except String Value)
    (conn : Option Conn) (config : Config) : Go (Dict Value × Option Error) :=
  let datas : Dict Value := []
  let filter := "(objectclass=" ++ LDAP_DATA_OBJECTCLASS ++ ")"
  match SearchFromLdap conn config filter with
  | Go.panic msg => Go.panic msg
  | Go.ret (Except.error err) => Go.ret (datas, some (Error.search err))
  | Go.ret (Except.ok entries) => Go.ret (decodeEntries unmarshal datas entries)

/-- The loop of `FetchPoliciesFromLdap` over `result.Entries`, from the files
appended so far.  `parse` is `ast.ParseModule`; `ast.MustParseModule` panics
with its error. -/
def parseEntries {M : Type} (parse : String → Except String M) :
    List (ModuleFile M) → List Entry → Go (List (ModuleFile M))
  | files, [] => Go.ret files
  | files, entry :: rest =>
    let path := entry.GetAttributeValue LDAP_POLICY_PATH_ATTRIBUTE
    let content := entry.GetRawAttributeValue LDAP_POLICY_CONTENT_ATTRIBUTE
    match parse content with
    | Except.error err => Go.panic err
    | Except.ok parsed =>
      parseEntries parse (files ++ [{ Path := path, Raw := content, Parsed := parsed }]) rest

/-- The function `Synchronizer.FetchPoliciesFromLdap`: the named results
`(files, err)`, or a panic. -/
def FetchPoliciesFromLdap {M : Type} (parse : String → Except String M)
    (conn : Option Conn) (config : Config) : Go (List (ModuleFile M) × Option Error) :=
  let filter := "(objectclass=" ++ LDAP_POLICY_OBJECTCLASS ++ ")"
  match SearchFromLdap conn config filter with
  | Go.panic msg => Go.panic msg
  | Go.ret (Except.error err) => Go.ret ([], some (Error.search err))
  | Go.ret (Except.ok entries) =>
    match parseEntries parse [] entries with
    | Go.panic msg => Go.panic msg
    | Go.ret files => Go.ret (files, none)

/-! ## `Start` -/

/-- What the synchronizer does not control: the answer of the `k`-th call of
`ldap.Dial` for an address, the JSON decoder, the policy parser, the policy
compiler, and the order in which `range` visits a mapping. -/
structure Env (M : Type) where
  dial : Nat → String → Except String Conn
  unmarshal : String → Except String Value
  parse : String → Except String M
  compile : Value → Dict M → List String
  range : Dict Value → List (String × Value)

/-- The calls `Start` makes, in order. -/
inductive Event where
  | connect : Event
  | sleep : Event
  | fetchDatas : Event
  | fetchPolicies : Event
  | callback : Event
  deriving DecidableEq, Repr

/-- A finished run of `Start`: what it returned (or a panic), the store
afterwards, and the calls it made. -/
structure Run where
  result : Go (Option Error)
  store : Db
  events : List Event

/-- The retry loop of `Start` (lines 70-78), from the `k`-th connection attempt
on, with the calls made so far.  The loop has no exit but a successful
connection; `fuel` bounds the number of iterations, and `none` is a loop that
is still running when the fuel is used up. -/
def connectLoop {M : Type} (E : Env M) (config : Config) :
    Nat → Nat → List Event → Option (Option Conn × List Event)
  | 0, _, _ => none
  | fuel + 1, k, events =>
    match connectToLdap (E.dial k config.Addr) config with
    | (con, none) => some (con, events ++ [Event.connect])
    | (_, some _) => connectLoop E config fuel (k + 1) (events ++ [Event.connect, Event.sleep])

/-- The rest of `Start` (lines 80-91), once the loop has left `conn`. -/
def startFetchCommit {M : Type} (E : Env M) (config : Config) (db : Db)
    (conn : Option Conn) (events : List Event) : Run :=
  match FetchDatasFromLdap E.unmarshal conn config with
  | Go.panic msg => ⟨Go.panic msg, db, events ++ [Event.fetchDatas]⟩
  | Go.ret (_, some err) => ⟨Go.ret (some err), db, events ++ [Event.fetchDatas]⟩
  | Go.ret (datas, none) =>
    match FetchPoliciesFromLdap E.parse conn config with
    | Go.panic msg => ⟨Go.panic msg, db, events ++ [Event.fetchDatas, Event.fetchPolicies]⟩
    | Go.ret (_, some err) =>
      ⟨Go.ret (some err), db, events ++ [Event.fetchDatas, Event.fetchPolicies]⟩
    | Go.ret (files, none) =>
      let committed := callback E.compile db (E.range datas) files
      ⟨committed.1, committed.2,
        events ++ [Event.fetchDatas, Event.fetchPolicies, Event.callback]⟩

/-- The function `Synchronizer.Start` on a store `db`; `none` is a run whose
retry loop is still going after `fuel` iterations. -/
def Start {M : Type} (E : Env M) (config : Config) (db : Db) (fuel : Nat) : Option Run :=
  match connectLoop E config fuel 0 [] with
  | none => none
  | some (conn, events) => some (startFetchCommit E config db conn events)

/-! ## Sample collaborators for concrete runs -/

/-- A JSON decoder for concrete runs: it agrees with `json.Unmarshal` on the
documents `1`, `true` and `null`, and on the text `oops`, which is not JSON; it
rejects everything else. -/
def jsonSample (content : String) : Except String Value :=
  if content = "1" then Except.ok (Value.num 1)
  else if content = "true" then Except.ok (Value.bool true)
  else if content = "null" then Except.ok Value.null
  else Except.error "invalid character"

/-- A policy parser for concrete runs, with the source text as the parsed
module: it accepts the one-line modules `package a` and `package b` and rejects
everything else. -/
def regoSample (content : String) : Except String String :=
  if content = "package a" ∨ content = "package b" then Except.ok content
  else Except.error "rego_parse_error"

/-- A directory entry with a path (or id) attribute and a content attribute. -/
def mkEntry (pathAttr path contentAttr content : String) : Entry :=
  ⟨[⟨pathAttr, [path]⟩, ⟨contentAttr, [content]⟩]⟩

/-- A connection for concrete runs: TLS and bind succeed, and every search
answers `entries`. -/
def connSample (entries : List Entry) : Conn :=
  ⟨none, fun _ _ => none, fun _ _ => Except.ok entries⟩

/-- A configuration for concrete runs. -/
def configSample : Config := ⟨"ldap:389", "dc=example", "admin", "secret"⟩

/-- An empty store. -/
def dbEmpty : Db := ⟨emptyObj, fun _ => none⟩

/-- The last entry, in search order, whose attribute `pathAttr` is `k`. -/
def lastEntry (pathAttr : String) (entries : List Entry) (k : String) : Option Entry :=
  (entries.filter (fun e => e.GetAttributeValue pathAttr = k)).getLast?

/-- The last file, in list order, whose path is `p`. -/
def lastFile {M : Type} (files : List (ModuleFile M)) (p : String) : Option (ModuleFile M) :=
  (files.filter (fun f => f.Path = p)).getLast?

/-- The decoded content of a document entry, when it decodes. -/
def decodedValue (unmarshal : String → Except String Value) (e : Entry) : Option Value :=
  (unmarshal (e.GetRawAttributeValue LDAP_DATA_CONTENT_ATTRIBUTE)).toOption

/-- The calls of a retry loop that fails `n` times and then connects. -/
def retryEvents : Nat → List Event
  | 0 => [Event.connect]
  | n + 1 => Event.connect :: Event.sleep :: retryEvents n

/-- A directory for concrete runs: the first `failures` dials are refused, every
later one answers `conn`; the decoder, parser and compiler are the samples (the
compiler accepts every module set), and `range` visits a mapping in the order
of its association list. -/
def envSample (failures : Nat) (conn : Conn) : Env String :=
  { dial := fun k _ => if k < failures then Except.error "connection refused" else Except.ok conn
    unmarshal := jsonSample
    parse := regoSample
    compile := fun _ _ => []
    range := fun datas => datas }

/-- A connection for concrete runs on which every search fails. -/
def connNoSearch : Conn :=
  ⟨none, fun _ _ => none, fun _ _ => Except.error "search failed"⟩

/-- A store for concrete runs whose document namespace holds the scalar `1` at
`/a`. -/
def dbScalarAtA : Db := ⟨Value.obj (setKey (fun _ => none) "a" (Value.num 1)), fun _ => none⟩

/-- The error that the work returned, if it returned one. -/
def Res.toError {α : Type} : Res α → Option Error
  | Res.err e => some e
  | _ => none

/-- A store for concrete runs whose document namespace holds the scalars `1` at
`/a` and `2` at `/b`. -/
def dbScalarsAtAB : Db :=
  ⟨Value.obj (setKey (setKey (fun _ => none) "a" (Value.num 1)) "b" (Value.num 2)),
    fun _ => none⟩

/-- A connection for concrete runs that answers the two searches apart: the
document entries for the filter on `OPAData`, the policy entries for the filter
on `OPAPolicy`, and an error for any other filter. -/
def connSplit (docs policies : List Entry) : Conn :=
  ⟨none, fun _ _ => none, fun _ filter =>
    if filter = "(objectclass=OPAData)" then Except.ok docs
    else if filter = "(objectclass=OPAPolicy)" then Except.ok policies
    else Except.error "no such object"⟩

/-- A store for concrete runs whose document namespace holds at `/a` a sequence
of one empty mapping. -/
def dbSeqAtA : Db :=
  ⟨Value.obj (setKey (fun _ => none) "a" (Value.arr [emptyObj])), fun _ => none⟩

/-- A store for concrete runs whose document namespace holds at `/a` a sequence
of two empty mappings. -/
def dbSeqsAtA : Db :=
  ⟨Value.obj (setKey (fun _ => none) "a" (Value.arr [emptyObj, emptyObj])), fun _ => none⟩

/-- The mapping with the one key `x`, for concrete runs. -/
def objX : Value := Value.obj (setKey (fun _ => none) "x" Value.null)

/-- The mapping with the one key `y`, for concrete runs. -/
def objY : Value := Value.obj (setKey (fun _ => none) "y" Value.null)

/-! ## The document tree, from the root down

`storage.MakeDir` works from the end of a path towards the root.  For the proofs
about `writeData` the same operations are described from the root down, on a
node that may be missing (`none`), with errors forgotten, for paths that
descend through mappings only (`seqFree`). -/

/-- The fields of a node that a path can descend through: a missing node counts
as an empty mapping, a mapping has its fields, and nothing else can be
descended through. -/
def fieldsOf : Option Value → Option (String → Option Value)
  | none => some (fun _ => none)
  | some (Value.obj f) => some f
  | some _ => none

/-- The node at a path. -/
def readDoc : Option Value → Path → Option Value
  | n, [] => n
  | some (Value.obj f), k :: ks => readDoc (f k) ks
  | _, _ :: _ => none

/-- The additive write, from the root down. -/
def writeDoc : Option Value → Path → Value → Option Value
  | _, [], v => some v
  | some (Value.obj f), k :: ks, v =>
    (writeDoc (f k) ks v).map fun c => Value.obj (setKey f k c)
  | _, _ :: _, _ => none

/-- Making a path addressable, from the root down: missing nodes become empty
mappings, and a node that exists must be a mapping. -/
def mkdirDoc : Option Value → Path → Option Value
  | none, [] => some emptyObj
  | some c, [] => if c.isObj then some c else none
  | n, k :: ks =>
    (fieldsOf n).bind fun f => (mkdirDoc (f k) ks).map fun c => Value.obj (setKey f k c)

/-- One round of the loop of `writeData` on a node, from the root down: the path
is made addressable and the value is put there. -/
def putDoc : Option Value → Path → Value → Option Value
  | none, [], v => some v
  | some c, [], v => if c.isObj then some v else none
  | n, k :: ks, v =>
    (fieldsOf n).bind fun f => (putDoc (f k) ks v).map fun c => Value.obj (setKey f k c)

/-- The path that `writeData` parses for a document key, when it parses. -/
def docPath (key : String) : Option Path := ParsePath (writeDataPath key)

/-- Two document keys whose parsed paths are such that neither is a prefix of the
other (in particular the paths differ).  A key that does not parse is apart
from every key. -/
def pathsApart (a b : String) : Bool :=
  match docPath a, docPath b with
  | some p, some q => !p.isPrefixOf q && !q.isPrefixOf p
  | _, _ => true

/-- Whether no step of a path, taken from a node, leads out of a sequence: every
node that the path descends through is a mapping, a scalar, or missing. -/
def seqFree : Option Value → Path → Bool
  | _, [] => true
  | some (Value.arr _), _ :: _ => false
  | some (Value.obj f), k :: ks => seqFree (f k) ks
  | _, _ :: _ => true

/-- Whether the path of a document key does not run through a sequence of the
document namespace `d`.  (Nothing is asked of a key that does not parse.) -/
def seqFreeKey (d : Value) (key : String) : Bool :=
  match docPath key with
  | some p => seqFree (some d) p
  | none => true

/-- One round of the loop of `writeData` on the document namespace, with errors
and panics forgotten. -/
def putKey (d : Value) (key : String) (v : Value) : Option Value :=
  match docPath key with
  | none => none
  | some [] => if v.isObj then some v else none
  | some (k :: ks) => putDoc (some d) (k :: ks) v

/-- The loop of `writeData` on the document namespace, with errors and panics
forgotten. -/
def putAll (d : Value) : List (String × Value) → Option Value
  | [] => some d
  | (key, v) :: rest => (putKey d key v).bind fun d' => putAll d' rest

/-! ## Lemmas on `Dict` -/

theorem Dict.lookup_insert {α : Type} (m : Dict α) (k : String) (v : α) (k' : String) :
    Dict.lookup (Dict.insert m k v) k' = if k = k' then some v else Dict.lookup m k' := by
  induction m with
  | nil => simp [Dict.insert, Dict.lookup]
  | cons hd tl ih =>
    obtain ⟨k₀, v₀⟩ := hd
    by_cases h : k₀ = k
    · subst h
      by_cases h' : k₀ = k' <;> simp [Dict.insert, Dict.lookup, h']
    · by_cases h' : k₀ = k'
      · subst h'
        simp [Dict.insert, Dict.lookup, h, Ne.symm h]
      · simp [Dict.insert, Dict.lookup, h, h', ih]

theorem Dict.insert_ne_nil {α : Type} (m : Dict α) (k : String) (v : α) :
    Dict.insert m k v ≠ [] := by
  cases m with
  | nil => simp [Dict.insert]
  | cons hd tl =>
    obtain ⟨k₀, v₀⟩ := hd
    by_cases h : k₀ = k <;> simp [Dict.insert, h]

/-! ## The fetch functions -/

theorem lastEntry_cons (pathAttr : String) (e : Entry) (es : List Entry) (k : String) :
    lastEntry pathAttr (e :: es) k =
      if e.GetAttributeValue pathAttr = k then some ((lastEntry pathAttr es k).getD e)
      else lastEntry pathAttr es k := by
  unfold lastEntry
  by_cases h : e.GetAttributeValue pathAttr = k
  · simp [List.filter_cons, h, List.getLast?_cons]
  · simp [List.filter_cons, h]

/-- When every entry decodes, the loop runs to its end without error and the
mapping holds, for every key, the decoded value of the last entry with that
path, or what the mapping held before when there is no such entry. -/
theorem decodeEntries_all_ok (unmarshal : String → Except String Value) (es : List Entry) :
    ∀ acc : Dict Value,
      (∀ e ∈ es, ∃ v, unmarshal (e.GetRawAttributeValue LDAP_DATA_CONTENT_ATTRIBUTE) = Except.ok v) →
      (decodeEntries unmarshal acc es).2 = none ∧
      ∀ k, Dict.lookup (decodeEntries unmarshal acc es).1 k =
        match lastEntry LDAP_DATA_PATH_ATTRIBUTE es k with
        | some e => decodedValue unmarshal e
        | none => Dict.lookup acc k := by
  induction es with
  | nil => intro acc _; simp [decodeEntries, lastEntry]
  | cons e rest ih =>
    intro acc h
    obtain ⟨v, hv⟩ := h e (List.mem_cons_self _ _)
    have hrest := ih (Dict.insert acc (e.GetAttributeValue LDAP_DATA_PATH_ATTRIBUTE) v)
      (fun e' he' => h e' (List.mem_cons_of_mem _ he'))
    simp only [decodeEntries, hv]
    refine ⟨hrest.1, fun k => ?_⟩
    rw [hrest.2 k, lastEntry_cons]
    by_cases hk : e.GetAttributeValue LDAP_DATA_PATH_ATTRIBUTE = k
    · cases hl : lastEntry LDAP_DATA_PATH_ATTRIBUTE rest k with
      | none => simp [hk, Dict.lookup_insert, decodedValue, hv, Except.toOption]
      | some e' => simp [hk]
    · cases hl : lastEntry LDAP_DATA_PATH_ATTRIBUTE rest k with
      | none => simp [hk, Dict.lookup_insert]
      | some e' => simp [hk]

/-- The loop stops at the first entry that does not decode, with the mapping
built from the entries before it. -/
theorem decodeEntries_first_bad (unmarshal : String → Except String Value)
    (pre : List Entry) (bad : Entry) (post : List Entry) (msg : String)
    (hpre : ∀ e ∈ pre, ∃ v, unmarshal (e.GetRawAttributeValue LDAP_DATA_CONTENT_ATTRIBUTE) = Except.ok v)
    (hbad : unmarshal (bad.GetRawAttributeValue LDAP_DATA_CONTENT_ATTRIBUTE) = Except.error msg) :
    ∀ acc : Dict Value, decodeEntries unmarshal acc (pre ++ bad :: post) =
      ((decodeEntries unmarshal acc pre).1, some (Error.decode msg)) := by
  induction pre with
  | nil => intro acc; simp [decodeEntries, hbad]
  | cons e rest ih =>
    intro acc
    obtain ⟨v, hv⟩ := hpre e (List.mem_cons_self _ _)
    simp only [List.cons_append, decodeEntries, hv]
    exact ih (fun e' he' => hpre e' (List.mem_cons_of_mem _ he')) _

theorem decodeEntries_ne_nil (unmarshal : String → Except String Value) (es : List Entry) :
    ∀ acc : Dict Value, acc ≠ [] → (decodeEntries unmarshal acc es).1 ≠ [] := by
  induction es with
  | nil => intro acc h; simpa [decodeEntries] using h
  | cons e rest ih =>
    intro acc h
    simp only [decodeEntries]
    cases hv : unmarshal (e.GetRawAttributeValue LDAP_DATA_CONTENT_ATTRIBUTE) with
    | error msg => simpa using h
    | ok v => exact ih _ (Dict.insert_ne_nil _ _ _)

/-- **C7.** When the search answers a list of document entries whose contents
all decode, `FetchDatasFromLdap` returns without error the mapping built by
inserting each entry in search order with overwrite: every key maps to the
decoded value of the last entry carrying that path, a key that no entry carries
is absent, and the mapping is empty when there are no entries. -/
theorem FetchDatasFromLdap_all_decoded (unmarshal : String → Except String Value)
    (conn : Conn) (config : Config) (entries : List Entry)
    (hsearch : conn.Search config.BaseDN "(objectclass=OPAData)" = Except.ok entries)
    (hdec : ∀ e ∈ entries,
      ∃ v, unmarshal (e.GetRawAttributeValue LDAP_DATA_CONTENT_ATTRIBUTE) = Except.ok v) :
    ∃ datas, FetchDatasFromLdap unmarshal (some conn) config = Go.ret (datas, none) ∧
      (∀ k e, lastEntry LDAP_DATA_PATH_ATTRIBUTE entries k = some e →
        Dict.lookup datas k = decodedValue unmarshal e ∧ (decodedValue unmarshal e).isSome) ∧
      (∀ k, lastEntry LDAP_DATA_PATH_ATTRIBUTE entries k = none → Dict.lookup datas k = none) ∧
      (entries = [] → datas = []) := by
  have hfilter : "(objectclass=" ++ LDAP_DATA_OBJECTCLASS ++ ")" = "(objectclass=OPAData)" := by
    decide
  have hall := decodeEntries_all_ok unmarshal entries [] hdec
  refine ⟨(decodeEntries unmarshal [] entries).1, ?_, ?_, ?_, ?_⟩
  · simp only [FetchDatasFromLdap, SearchFromLdap, hfilter, hsearch]
    rw [← hall.1]
  · intro k e hk
    have := hall.2 k
    rw [hk] at this
    refine ⟨this, ?_⟩
    have hmem : e ∈ entries := by
      have h1 : e ∈ entries.filter (fun e => e.GetAttributeValue LDAP_DATA_PATH_ATTRIBUTE = k) :=
        List.mem_of_mem_getLast? hk
      exact (List.mem_filter.mp h1).1
    obtain ⟨v, hv⟩ := hdec e hmem
    simp [decodedValue, hv, Except.toOption]
  · intro k hk
    have := hall.2 k
    rw [hk] at this
    simpa [Dict.lookup] using this
  · intro h
    subst h
    simp [decodeEntries]

/-- Witness for C7: two entries for `/cfg/a` and one for `/cfg/b`. -/
theorem FetchDatasFromLdap_all_decoded_witness :
    ∃ datas, FetchDatasFromLdap jsonSample
        (some (connSample [mkEntry "path" "/cfg/a" "jsonData" "1",
          mkEntry "path" "/cfg/b" "jsonData" "null",
          mkEntry "path" "/cfg/a" "jsonData" "true"])) configSample = Go.ret (datas, none) ∧
      (∀ k e, lastEntry LDAP_DATA_PATH_ATTRIBUTE [mkEntry "path" "/cfg/a" "jsonData" "1",
          mkEntry "path" "/cfg/b" "jsonData" "null",
          mkEntry "path" "/cfg/a" "jsonData" "true"] k = some e →
        Dict.lookup datas k = decodedValue jsonSample e ∧ (decodedValue jsonSample e).isSome) ∧
      (∀ k, lastEntry LDAP_DATA_PATH_ATTRIBUTE [mkEntry "path" "/cfg/a" "jsonData" "1",
          mkEntry "path" "/cfg/b" "jsonData" "null",
          mkEntry "path" "/cfg/a" "jsonData" "true"] k = none → Dict.lookup datas k = none) ∧
      (([mkEntry "path" "/cfg/a" "jsonData" "1", mkEntry "path" "/cfg/b" "jsonData" "null",
          mkEntry "path" "/cfg/a" "jsonData" "true"] : List Entry) = [] → datas = []) :=
  FetchDatasFromLdap_all_decoded jsonSample _ configSample _ rfl (by
    intro e he
    simp only [List.mem_cons, List.mem_singleton, List.not_mem_nil, or_false] at he
    rcases he with rfl | rfl | rfl
    · exact ⟨_, rfl⟩
    · exact ⟨_, rfl⟩
    · exact ⟨_, rfl⟩)

/-- Counterexample to C3 as stated: the first entry is valid and the second is
not JSON; the fetch returns the decode error together with a mapping that holds
the first entry. -/
theorem FetchDatasFromLdap_partial_counterexample :
    FetchDatasFromLdap jsonSample
        (some (connSample [mkEntry "path" "/cfg/a" "jsonData" "1",
          mkEntry "path" "/cfg/b" "jsonData" "oops"])) configSample
      = Go.ret ([("/cfg/a", Value.num 1)], some (Error.decode "invalid character")) ∧
    ([("/cfg/a", Value.num 1)] : Dict Value) ≠ [] :=
  ⟨rfl, by simp⟩

/-- **C3 (amended).** When the search answers entries of which `bad` is the
first whose content does not decode, `FetchDatasFromLdap` returns the decode
error of `bad` together with the mapping built from the entries before it:
every key maps to the decoded value of the last of those entries carrying that
path, and the mapping is empty exactly when no entry precedes `bad`. -/
theorem FetchDatasFromLdap_first_invalid (unmarshal : String → Except String Value)
    (conn : Conn) (config : Config) (pre : List Entry) (bad : Entry) (post : List Entry)
    (msg : String)
    (hsearch : conn.Search config.BaseDN "(objectclass=OPAData)" = Except.ok (pre ++ bad :: post))
    (hpre : ∀ e ∈ pre,
      ∃ v, unmarshal (e.GetRawAttributeValue LDAP_DATA_CONTENT_ATTRIBUTE) = Except.ok v)
    (hbad : unmarshal (bad.GetRawAttributeValue LDAP_DATA_CONTENT_ATTRIBUTE) = Except.error msg) :
    ∃ datas, FetchDatasFromLdap unmarshal (some conn) config
        = Go.ret (datas, some (Error.decode msg)) ∧
      (∀ k, Dict.lookup datas k =
        (lastEntry LDAP_DATA_PATH_ATTRIBUTE pre k).bind (decodedValue unmarshal)) ∧
      (datas = [] ↔ pre = []) := by
  have hfilter : "(objectclass=" ++ LDAP_DATA_OBJECTCLASS ++ ")" = "(objectclass=OPAData)" := by
    decide
  have hall := decodeEntries_all_ok unmarshal pre [] hpre
  refine ⟨(decodeEntries unmarshal [] pre).1, ?_, ?_, ?_⟩
  · simp only [FetchDatasFromLdap, SearchFromLdap, hfilter, hsearch]
    rw [decodeEntries_first_bad unmarshal pre bad post msg hpre hbad]
  · intro k
    rw [hall.2 k]
    cases lastEntry LDAP_DATA_PATH_ATTRIBUTE pre k <;> simp [Dict.lookup]
  · constructor
    · intro h
      cases pre with
      | nil => rfl
      | cons e rest =>
        exfalso
        obtain ⟨v, hv⟩ := hpre e (List.mem_cons_self _ _)
        simp only [decodeEntries, hv] at h
        exact decodeEntries_ne_nil unmarshal rest _ (Dict.insert_ne_nil _ _ _) h
    · intro h
      subst h
      simp [decodeEntries]

/-- Witness for C3 (amended): a valid entry, then one that is not JSON, then a
valid one. -/
theorem FetchDatasFromLdap_first_invalid_witness :
    ∃ datas, FetchDatasFromLdap jsonSample
        (some (connSample ([mkEntry "path" "/cfg/a" "jsonData" "1"] ++
          mkEntry "path" "/cfg/b" "jsonData" "oops" ::
          [mkEntry "path" "/cfg/c" "jsonData" "true"]))) configSample
        = Go.ret (datas, some (Error.decode "invalid character")) ∧
      (∀ k, Dict.lookup datas k =
        (lastEntry LDAP_DATA_PATH_ATTRIBUTE [mkEntry "path" "/cfg/a" "jsonData" "1"] k).bind
          (decodedValue jsonSample)) ∧
      (datas = [] ↔ [mkEntry "path" "/cfg/a" "jsonData" "1"] = []) :=
  FetchDatasFromLdap_first_invalid jsonSample _ configSample
    [mkEntry "path" "/cfg/a" "jsonData" "1"] (mkEntry "path" "/cfg/b" "jsonData" "oops")
    [mkEntry "path" "/cfg/c" "jsonData" "true"] "invalid character" rfl
    (by
      intro e he
      simp only [List.mem_singleton] at he
      subst he
      exact ⟨_, rfl⟩)
    rfl

/-- The loop panics at the first entry that does not parse, whatever files were
appended before. -/
theorem parseEntries_first_bad {M : Type} (parse : String → Except String M)
    (pre : List Entry) (bad : Entry) (post : List Entry) (msg : String)
    (hpre : ∀ e ∈ pre,
      ∃ m, parse (e.GetRawAttributeValue LDAP_POLICY_CONTENT_ATTRIBUTE) = Except.ok m)
    (hbad : parse (bad.GetRawAttributeValue LDAP_POLICY_CONTENT_ATTRIBUTE) = Except.error msg) :
    ∀ files : List (ModuleFile M),
      parseEntries parse files (pre ++ bad :: post) = Go.panic msg := by
  induction pre with
  | nil => intro files; simp [parseEntries, hbad]
  | cons e rest ih =>
    intro files
    obtain ⟨m, hm⟩ := hpre e (List.mem_cons_self _ _)
    simp only [List.cons_append, parseEntries, hm]
    exact ih (fun e' he' => hpre e' (List.mem_cons_of_mem _ he')) _

/-- **C2 (the code at the failing inputs).** When the search answers policy
entries of which `bad` is the first whose content does not parse,
`FetchPoliciesFromLdap` returns nothing to its caller, neither an error nor a
list of files: it panics with the parse error of `bad`
(`ast.MustParseModule`). -/
theorem FetchPoliciesFromLdap_first_invalid {M : Type} (parse : String → Except String M)
    (conn : Conn) (config : Config) (pre : List Entry) (bad : Entry) (post : List Entry)
    (msg : String)
    (hsearch : conn.Search config.BaseDN "(objectclass=OPAPolicy)"
      = Except.ok (pre ++ bad :: post))
    (hpre : ∀ e ∈ pre,
      ∃ m, parse (e.GetRawAttributeValue LDAP_POLICY_CONTENT_ATTRIBUTE) = Except.ok m)
    (hbad : parse (bad.GetRawAttributeValue LDAP_POLICY_CONTENT_ATTRIBUTE) = Except.error msg) :
    FetchPoliciesFromLdap parse (some conn) config = Go.panic msg := by
  have hfilter :
      "(objectclass=" ++ LDAP_POLICY_OBJECTCLASS ++ ")" = "(objectclass=OPAPolicy)" := by
    decide
  simp only [FetchPoliciesFromLdap, SearchFromLdap, hfilter, hsearch]
  rw [parseEntries_first_bad parse pre bad post msg hpre hbad]

/-- Witness for C2: a module that parses, then one that does not. -/
theorem FetchPoliciesFromLdap_first_invalid_witness :
    FetchPoliciesFromLdap regoSample
        (some (connSample ([mkEntry "id" "pol1.rego" "content" "package a"] ++
          mkEntry "id" "pol2.rego" "content" "p = " :: []))) configSample
      = Go.panic "rego_parse_error" :=
  FetchPoliciesFromLdap_first_invalid regoSample _ configSample
    [mkEntry "id" "pol1.rego" "content" "package a"]
    (mkEntry "id" "pol2.rego" "content" "p = ") [] "rego_parse_error" rfl
    (by
      intro e he
      simp only [List.mem_singleton] at he
      subst he
      exact ⟨_, rfl⟩)
    rfl

/-! ## The path handed to `MustParsePath` -/

/-- **C8 (the code at the failing inputs).** A key that is not empty and does not
begin with `/` gets the slash appended, not prepended: the string handed to
`storage.MustParsePath` still does not begin with `/`, and `writeData` panics
on it. -/
theorem writeDataPath_no_leading_slash (path : String) (value : Value) (txn : Db)
    (rest : List (String × Value))
    (hne : path ≠ "") (hpre : HasPrefix path "/" = false) :
    writeDataPath path = path ++ "/" ∧
    HasPrefix (writeDataPath path) "/" = false ∧
    MustParsePath (writeDataPath path) = Go.panic (path ++ "/") ∧
    writeData txn ((path, value) :: rest) = Res.panic (path ++ "/") := by
  have h1 : writeDataPath path = path ++ "/" := by simp [writeDataPath, hpre]
  obtain ⟨cs⟩ := path
  cases cs with
  | nil => exact absurd rfl hne
  | cons c cs =>
    have hc : c ≠ '/' := by
      intro h
      subst h
      simp [HasPrefix, List.isPrefixOf] at hpre
    have h2 : HasPrefix (String.mk (c :: cs) ++ "/") "/" = false := by
      simp [HasPrefix, List.isPrefixOf, Ne.symm hc]
    have h3 : MustParsePath (String.mk (c :: cs) ++ "/") = Go.panic (String.mk (c :: cs) ++ "/") := by
      simp [MustParsePath, ParsePath, hc]
    refine ⟨h1, by rw [h1]; exact h2, by rw [h1]; exact h3, ?_⟩
    simp only [writeData, h1, h3]

/-- Witness for C8: the key `a`. -/
theorem writeDataPath_no_leading_slash_witness :
    writeDataPath "a" = "a" ++ "/" ∧
    HasPrefix (writeDataPath "a") "/" = false ∧
    MustParsePath (writeDataPath "a") = Go.panic ("a" ++ "/") ∧
    writeData dbEmpty (("a", Value.num 1) :: []) = Res.panic ("a" ++ "/") :=
  writeDataPath_no_leading_slash "a" (Value.num 1) dbEmpty [] (by decide) (by decide)

/-! ## `Start` -/

theorem count_retryEvents (n : Nat) :
    (retryEvents n).count Event.connect = n + 1 ∧ (retryEvents n).count Event.sleep = n ∧
    (retryEvents n).count Event.fetchDatas = 0 ∧ (retryEvents n).count Event.fetchPolicies = 0 ∧
    (retryEvents n).count Event.callback = 0 := by
  induction n with
  | zero => decide
  | succ n ih =>
    obtain ⟨h1, h2, h3, h4, h5⟩ := ih
    simp [retryEvents, h1, h2, h3, h4, h5]

/-- The loop, started at attempt `k`, when the attempts `k, ..., k + n - 1` fail and
attempt `k + n` succeeds: with `n` iterations or fewer it is still running, and
with more it leaves after exactly `n + 1` attempts. -/
theorem connectLoop_spec {M : Type} (E : Env M) (config : Config) (n : Nat) :
    ∀ (k : Nat) (events : List Event),
      (∀ j, j < n → (connectToLdap (E.dial (k + j) config.Addr) config).2 ≠ none) →
      (connectToLdap (E.dial (k + n) config.Addr) config).2 = none →
      (∀ fuel, fuel ≤ n → connectLoop E config fuel k events = none) ∧
      (∀ fuel, n < fuel → connectLoop E config fuel k events =
        some ((connectToLdap (E.dial (k + n) config.Addr) config).1, events ++ retryEvents n)) := by
  induction n with
  | zero =>
    intro k events _ hok
    constructor
    · intro fuel hfuel
      have : fuel = 0 := by omega
      subst this
      rfl
    · intro fuel hfuel
      obtain ⟨f, rfl⟩ : ∃ f, fuel = f + 1 := ⟨fuel - 1, by omega⟩
      simp only [Nat.add_zero] at hok ⊢
      rcases hc : connectToLdap (E.dial k config.Addr) config with ⟨con, err⟩
      rw [hc] at hok
      simp only at hok
      subst hok
      simp [connectLoop, hc, retryEvents]
  | succ n ih =>
    intro k events hfail hok
    have hfirst : (connectToLdap (E.dial k config.Addr) config).2 ≠ none := by
      simpa using hfail 0 (by omega)
    have hrest := ih (k + 1) (events ++ [Event.connect, Event.sleep])
      (fun j hj => by
        have := hfail (j + 1) (by omega)
        rwa [show k + (j + 1) = k + 1 + j by omega] at this)
      (by rwa [show k + (n + 1) = k + 1 + n by omega] at hok)
    rcases hc : connectToLdap (E.dial k config.Addr) config with ⟨con, err⟩
    rw [hc] at hfirst
    cases err with
    | none => exact absurd rfl hfirst
    | some msg =>
      constructor
      · intro fuel hfuel
        cases fuel with
        | zero => rfl
        | succ f =>
          simp only [connectLoop, hc]
          exact hrest.1 f (by omega)
      · intro fuel hfuel
        obtain ⟨f, rfl⟩ : ∃ f, fuel = f + 1 := ⟨fuel - 1, by omega⟩
        simp only [connectLoop, hc]
        rw [hrest.2 f (by omega), show k + (n + 1) = k + 1 + n by omega]
        simp [retryEvents]

/-- The loop makes no other calls than connection attempts and sleeps. -/
theorem connectLoop_events {M : Type} (E : Env M) (config : Config) (fuel : Nat) :
    ∀ (k : Nat) (events : List Event) (conn : Option Conn) (events' : List Event),
      connectLoop E config fuel k events = some (conn, events') →
      ∃ n, events' = events ++ retryEvents n := by
  induction fuel with
  | zero => intro k events conn events' h; simp [connectLoop] at h
  | succ f ih =>
    intro k events conn events' h
    rcases hc : connectToLdap (E.dial k config.Addr) config with ⟨con, err⟩
    cases err with
    | none =>
      simp only [connectLoop, hc, Option.some.injEq, Prod.mk.injEq] at h
      exact ⟨0, by simp [retryEvents, ← h.2]⟩
    | some msg =>
      simp only [connectLoop, hc] at h
      obtain ⟨n, hn⟩ := ih _ _ _ _ h
      exact ⟨n + 1, by simp [hn, retryEvents]⟩

/-- **C5.** When the first `N` connection attempts fail and attempt `N + 1`
succeeds, a run of `Start` that is allowed `N` loop iterations or fewer has not
returned, and every run allowed more returns after exactly `N + 1` connection
attempts (and `N` sleeps), all made before anything else; when both fetches and
the commit then succeed, `Start` returns success. -/
theorem Start_returns_after_N_failures {M : Type} (E : Env M) (config : Config) (db : Db)
    (N : Nat)
    (hfail : ∀ k, k < N → (connectToLdap (E.dial k config.Addr) config).2 ≠ none)
    (hok : (connectToLdap (E.dial N config.Addr) config).2 = none) :
    (∀ fuel, fuel ≤ N → Start E config db fuel = none) ∧
    (∀ fuel, N < fuel → ∃ run, Start E config db fuel = some run ∧
      retryEvents N <+: run.events ∧
      run.events.count Event.connect = N + 1 ∧ run.events.count Event.sleep = N ∧
      ∀ datas files,
        FetchDatasFromLdap E.unmarshal (connectToLdap (E.dial N config.Addr) config).1 config
          = Go.ret (datas, none) →
        FetchPoliciesFromLdap E.parse (connectToLdap (E.dial N config.Addr) config).1 config
          = Go.ret (files, none) →
        (callback E.compile db (E.range datas) files).1 = Go.ret none →
        run.result = Go.ret none ∧
        run.store = (callback E.compile db (E.range datas) files).2) := by
  have hloop := connectLoop_spec E config N 0 []
    (fun j hj => by simpa using hfail j hj) (by simpa using hok)
  simp only [Nat.zero_add, List.nil_append] at hloop
  obtain ⟨hc1, hc2, hc3, hc4, hc5⟩ := count_retryEvents N
  constructor
  · intro fuel hfuel
    simp [Start, hloop.1 fuel hfuel]
  · intro fuel hfuel
    refine ⟨startFetchCommit E config db (connectToLdap (E.dial N config.Addr) config).1
      (retryEvents N), by simp only [Start, hloop.2 fuel hfuel], ?_, ?_, ?_, ?_⟩
    · unfold startFetchCommit
      split
      · exact List.prefix_append _ _
      · exact List.prefix_append _ _
      · split
        · exact List.prefix_append _ _
        · exact List.prefix_append _ _
        · exact List.prefix_append _ _
    · unfold startFetchCommit
      split
      · simp [hc1]
      · simp [hc1]
      · split <;> simp [hc1]
    · unfold startFetchCommit
      split
      · simp [hc2]
      · simp [hc2]
      · split <;> simp [hc2]
    · intro datas files hd hf hcb
      simp only [startFetchCommit, hd, hf, hcb, and_self]

/-- Witness for C5: two refused dials, then a connection whose document search
answers one document and whose policy search answers one policy; with three
iterations `Start` returns success after three connection attempts. -/
theorem Start_returns_after_N_failures_witness :
    (∀ fuel, fuel ≤ 2 →
      Start (envSample 2 (connSplit [mkEntry "path" "/cfg/a" "jsonData" "1"]
          [mkEntry "id" "pol1.rego" "content" "package a"]))
        configSample dbEmpty fuel = none) ∧
    (∃ run,
      Start (envSample 2 (connSplit [mkEntry "path" "/cfg/a" "jsonData" "1"]
          [mkEntry "id" "pol1.rego" "content" "package a"]))
        configSample dbEmpty 3 = some run ∧
      retryEvents 2 <+: run.events ∧
      run.events.count Event.connect = 2 + 1 ∧ run.events.count Event.sleep = 2 ∧
      run.result = Go.ret none ∧
      run.store.policies "pol1.rego" = some "package a") :=
  have h := Start_returns_after_N_failures
    (envSample 2 (connSplit [mkEntry "path" "/cfg/a" "jsonData" "1"]
      [mkEntry "id" "pol1.rego" "content" "package a"])) configSample dbEmpty 2
    (by
      intro k hk
      have hk' : k = 0 ∨ k = 1 := by omega
      rcases hk' with rfl | rfl <;> decide)
    (by decide)
  ⟨h.1,
    let ⟨run, hrun, hpre, hconn, hsleep, hall⟩ := h.2 3 (by decide)
    have hdone := hall [("/cfg/a", Value.num 1)]
      [(⟨"pol1.rego", "package a", "package a"⟩ : ModuleFile String)] rfl rfl rfl
    ⟨run, hrun, hpre, hconn, hsleep, hdone.1, by rw [hdone.2]; rfl⟩⟩

/-- **C4.** In a run of `Start` whose retry loop has connected, when
`FetchDatasFromLdap` returns an error, or it succeeds and
`FetchPoliciesFromLdap` returns an error, `Start` returns that error; each
fetch was called at most once (the document fetch exactly once), `callback` was
never called, so no transaction was opened, and the store is as it was. -/
theorem Start_fetch_error {M : Type} (E : Env M) (config : Config) (db : Db) (fuel : Nat)
    (conn : Option Conn) (events : List Event) (err : Error)
    (hconn : connectLoop E config fuel 0 [] = some (conn, events))
    (hfetch :
      (∃ datas, FetchDatasFromLdap E.unmarshal conn config = Go.ret (datas, some err)) ∨
      ((∃ datas, FetchDatasFromLdap E.unmarshal conn config = Go.ret (datas, none)) ∧
        ∃ files, FetchPoliciesFromLdap E.parse conn config = Go.ret (files, some err))) :
    ∃ run, Start E config db fuel = some run ∧
      run.result = Go.ret (some err) ∧
      run.store = db ∧
      run.events.count Event.callback = 0 ∧
      run.events.count Event.fetchDatas = 1 ∧
      run.events.count Event.fetchPolicies ≤ 1 := by
  obtain ⟨n, hn⟩ := connectLoop_events E config fuel 0 [] conn events hconn
  simp only [List.nil_append] at hn
  obtain ⟨hc1, hc2, hc3, hc4, hc5⟩ := count_retryEvents n
  refine ⟨startFetchCommit E config db conn events, by simp only [Start, hconn], ?_⟩
  rcases hfetch with ⟨datas, hd⟩ | ⟨⟨datas, hd⟩, files, hf⟩
  · simp [startFetchCommit, hd, hn, hc3, hc4, hc5]
  · simp [startFetchCommit, hd, hf, hn, hc3, hc4, hc5]

/-- Witness for C4: one refused dial, then a connection on which the search
fails. -/
theorem Start_fetch_error_witness :
    ∃ run, Start (envSample 1 connNoSearch) configSample dbEmpty 2 = some run ∧
      run.result = Go.ret (some (Error.search "search failed")) ∧
      run.store = dbEmpty ∧
      run.events.count Event.callback = 0 ∧
      run.events.count Event.fetchDatas = 1 ∧
      run.events.count Event.fetchPolicies ≤ 1 :=
  Start_fetch_error (envSample 1 connNoSearch) configSample dbEmpty 2 (some connNoSearch)
    (retryEvents 1) (Error.search "search failed") rfl (Or.inl ⟨[], rfl⟩)

/-! ## The commit -/

theorem lastFile_cons {M : Type} (f : ModuleFile M) (fs : List (ModuleFile M)) (p : String) :
    lastFile (f :: fs) p =
      if f.Path = p then some ((lastFile fs p).getD f) else lastFile fs p := by
  unfold lastFile
  by_cases h : f.Path = p
  · simp [List.filter_cons, h, List.getLast?_cons]
  · simp [List.filter_cons, h]

theorem lastFile_path {M : Type} (files : List (ModuleFile M)) (p : String)
    (last : ModuleFile M) (h : lastFile files p = some last) : last ∈ files ∧ last.Path = p := by
  have h1 : last ∈ files.filter (fun f => f.Path = p) := List.mem_of_mem_getLast? h
  have h2 := List.mem_filter.mp h1
  exact ⟨h2.1, by simpa using h2.2⟩

theorem lastFile_of_mem {M : Type} (files : List (ModuleFile M)) (f : ModuleFile M)
    (h : f ∈ files) : ∃ last, lastFile files f.Path = some last := by
  have h1 : f ∈ files.filter (fun g => g.Path = f.Path) :=
    List.mem_filter.mpr ⟨h, by simp⟩
  cases hl : lastFile files f.Path with
  | some last => exact ⟨last, rfl⟩
  | none =>
    unfold lastFile at hl
    rw [List.getLast?_eq_none_iff] at hl
    rw [hl] at h1
    exact absurd h1 (List.not_mem_nil _)

/-- The module set maps every path to the parsed module of the last file with
that path. -/
theorem lookup_foldl_insert {M : Type} (files : List (ModuleFile M)) :
    ∀ (acc : Dict M) (p : String),
      Dict.lookup
        (files.foldl (fun modules file => Dict.insert modules file.Path file.Parsed) acc) p =
      match lastFile files p with
      | some last => some last.Parsed
      | none => Dict.lookup acc p := by
  induction files with
  | nil => intro acc p; simp [lastFile]
  | cons f rest ih =>
    intro acc p
    rw [List.foldl_cons, ih, lastFile_cons]
    by_cases hp : f.Path = p
    · cases hl : lastFile rest p with
      | none => simp [hp, Dict.lookup_insert]
      | some last => simp [hp]
    · cases hl : lastFile rest p with
      | none => simp [hp, Dict.lookup_insert]
      | some last => simp [hp]

/-- The upsert loop always succeeds on this store; it leaves the documents alone
and, at every id, the raw source of the last file with that id. -/
theorem upsertAll_spec {M : Type} (files : List (ModuleFile M)) :
    ∀ txn : Db, ∃ txn', upsertAll txn files = Res.ok txn' ∧ txn'.data = txn.data ∧
      ∀ p, txn'.policies p =
        match lastFile files p with
        | some last => some last.Raw
        | none => txn.policies p := by
  induction files with
  | nil => intro txn; exact ⟨txn, rfl, rfl, fun p => by simp [lastFile]⟩
  | cons f rest ih =>
    intro txn
    obtain ⟨txn', h1, h2, h3⟩ := ih
      { txn with policies := fun k => if k = f.Path then some f.Raw else txn.policies k }
    refine ⟨txn', by simpa [upsertAll, UpsertPolicy] using h1, by simpa using h2, fun p => ?_⟩
    rw [h3 p, lastFile_cons]
    by_cases hp : f.Path = p
    · cases hl : lastFile rest p with
      | none => simp [hp]
      | some last => simp [hp]
    · cases hl : lastFile rest p with
      | none => simp [hp, Ne.symm hp]
      | some last => simp [hp]

/-- A successful `writeModules` compiled without error and is the upsert loop. -/
theorem writeModules_eq_ok {M : Type} (compile : Value → Dict M → List String)
    (txn txn' : Db) (files : List (ModuleFile M))
    (h : writeModules compile txn files = Res.ok txn') :
    compile txn.data (moduleSet files) = [] ∧ upsertAll txn files = Res.ok txn' := by
  unfold writeModules at h
  by_cases hc : compile txn.data (moduleSet files) = []
  · simp only [hc, ne_eq, not_true_eq_false, if_false] at h
    exact ⟨hc, h⟩
  · simp [hc] at h

/-- **C10.** After a successful `writeModules`, for every file of the list the
policy namespace holds at its path the `Raw` of the last file in list order
with that path, and the module compiled for that path is the `Parsed` of that
same file; paths that no file carries keep their policy, the compiler reported
no error, and the documents are untouched. -/
theorem writeModules_installs_what_was_compiled {M : Type}
    (compile : Value → Dict M → List String) (txn txn' : Db) (files : List (ModuleFile M))
    (h : writeModules compile txn files = Res.ok txn') :
    compile txn.data (moduleSet files) = [] ∧
    (∀ f ∈ files, ∃ last, lastFile files f.Path = some last ∧ last.Path = f.Path ∧
      txn'.policies f.Path = some last.Raw ∧
      Dict.lookup (moduleSet files) f.Path = some last.Parsed) ∧
    (∀ p, lastFile files p = none →
      txn'.policies p = txn.policies p ∧ Dict.lookup (moduleSet files) p = none) ∧
    txn'.data = txn.data := by
  unfold writeModules at h
  by_cases hc : compile txn.data (moduleSet files) = []
  · simp only [hc, ne_eq, not_true_eq_false, if_false] at h
    obtain ⟨t, h1, h2, h3⟩ := upsertAll_spec files txn
    rw [h1] at h
    injection h with ht
    subst ht
    refine ⟨hc, ?_, ?_, h2⟩
    · intro f hf
      obtain ⟨last, hl⟩ := lastFile_of_mem files f hf
      refine ⟨last, hl, (lastFile_path files _ last hl).2, ?_, ?_⟩
      · rw [h3, hl]
      · unfold moduleSet
        rw [lookup_foldl_insert, hl]
    · intro p hp
      constructor
      · rw [h3, hp]
      · unfold moduleSet
        rw [lookup_foldl_insert, hp]
        rfl
  · simp [hc] at h

/-- Witness for C10: the path `pol1.rego` occurs twice. -/
theorem writeModules_installs_what_was_compiled_witness :
    ∃ txn', writeModules (fun _ _ => []) dbEmpty
        [⟨"pol1.rego", "package a", "package a"⟩, ⟨"pol2.rego", "package b", "package b"⟩,
          ⟨"pol1.rego", "package b", "package b"⟩] = Res.ok txn' ∧
      txn'.policies "pol1.rego" = some "package b" ∧
      Dict.lookup (moduleSet ([⟨"pol1.rego", "package a", "package a"⟩,
        ⟨"pol2.rego", "package b", "package b"⟩,
        ⟨"pol1.rego", "package b", "package b"⟩] : List (ModuleFile String))) "pol1.rego"
        = some "package b" ∧
      (∀ f ∈ ([⟨"pol1.rego", "package a", "package a"⟩,
          ⟨"pol2.rego", "package b", "package b"⟩,
          ⟨"pol1.rego", "package b", "package b"⟩] : List (ModuleFile String)),
        ∃ last, lastFile [⟨"pol1.rego", "package a", "package a"⟩,
            ⟨"pol2.rego", "package b", "package b"⟩,
            ⟨"pol1.rego", "package b", "package b"⟩] f.Path = some last ∧
          last.Path = f.Path ∧ txn'.policies f.Path = some last.Raw ∧
          Dict.lookup (moduleSet ([⟨"pol1.rego", "package a", "package a"⟩,
            ⟨"pol2.rego", "package b", "package b"⟩,
            ⟨"pol1.rego", "package b", "package b"⟩] : List (ModuleFile String))) f.Path
            = some last.Parsed) :=
  ⟨_, rfl, by decide, by decide,
    (writeModules_installs_what_was_compiled (fun _ _ => []) dbEmpty _
      [⟨"pol1.rego", "package a", "package a"⟩, ⟨"pol2.rego", "package b", "package b"⟩,
        ⟨"pol1.rego", "package b", "package b"⟩] rfl).2.1⟩

/-- An error returned by `writeData` is an error of the store. -/
theorem writeData_err_is_store (visit : List (String × Value)) :
    ∀ (txn : Db) (e : Error), writeData txn visit = Res.err e → ∃ se, e = Error.store se := by
  induction visit with
  | nil => intro txn e h; simp [writeData] at h
  | cons kv rest ih =>
    intro txn e h
    obtain ⟨path, value⟩ := kv
    simp only [writeData] at h
    split at h
    · simp at h
    · split at h
      · injection h with h
        exact ⟨_, h.symm⟩
      · split at h
        · injection h with h
          exact ⟨_, h.symm⟩
        · exact ih _ _ h

/-- Counterexample to C1 as stated: the store holds a scalar at `/a`, the one
document is for `/a/b`, and the compiler rejects every module set; `callback`
returns the store's write conflict, not the compile error. -/
theorem callback_store_error_counterexample :
    (callback (fun _ _ => ["rego_type_error"]) dbScalarAtA [("/a/b", Value.num 2)]
        [(⟨"pol1.rego", "package a", "package a"⟩ : ModuleFile String)]).1
      = Go.ret (some (Error.store (StoreErr.writeConflict ["a"]))) := by
  decide

/-- **C1 (amended).** When `writeData` does not panic and compiling the candidate
set on the transaction that `writeData` leaves reports a failure, `callback`
returns an error and the store, documents and policies, is as it was before the
call: the error is the compile error when `writeData` returned without error
(its writes were staged in the transaction), and the store error of
`writeData` otherwise. -/
theorem callback_compile_failure {M : Type} (compile : Value → Dict M → List String)
    (db : Db) (visit : List (String × Value)) (files : List (ModuleFile M))
    (hnopanic : ∀ msg, writeData db visit ≠ Res.panic msg)
    (hfail : ∀ txn, writeData db visit = Res.ok txn → compile txn.data (moduleSet files) ≠ []) :
    (callback compile db visit files).2 = db ∧
    ((∃ txn, writeData db visit = Res.ok txn ∧
        (callback compile db visit files).1
          = Go.ret (some (Error.compile (compile txn.data (moduleSet files))))) ∨
      (∃ se, writeData db visit = Res.err (Error.store se) ∧
        (callback compile db visit files).1 = Go.ret (some (Error.store se)))) := by
  cases hw : writeData db visit with
  | ok txn =>
    have hc := hfail txn hw
    simp [callback, Txn, hw, writeModules, hc]
  | err e =>
    obtain ⟨se, rfl⟩ := writeData_err_is_store visit db e hw
    simp [callback, Txn, hw]
  | panic msg => exact absurd hw (hnopanic msg)

/-- Witness for C1 (amended): a document is staged at `/cfg/a` and the compiler
rejects the module set. -/
theorem callback_compile_failure_witness :
    (callback (fun _ _ => ["rego_type_error"]) dbEmpty [("/cfg/a", Value.num 1)]
        [(⟨"pol1.rego", "package a", "package a"⟩ : ModuleFile String)]).2 = dbEmpty ∧
    ((∃ txn, writeData dbEmpty [("/cfg/a", Value.num 1)] = Res.ok txn ∧
        (callback (fun _ _ => ["rego_type_error"]) dbEmpty [("/cfg/a", Value.num 1)]
          [(⟨"pol1.rego", "package a", "package a"⟩ : ModuleFile String)]).1
          = Go.ret (some (Error.compile ((fun _ _ => ["rego_type_error"]) txn.data
              (moduleSet [(⟨"pol1.rego", "package a", "package a"⟩ : ModuleFile String)]))))) ∨
      (∃ se, writeData dbEmpty [("/cfg/a", Value.num 1)] = Res.err (Error.store se) ∧
        (callback (fun _ _ => ["rego_type_error"]) dbEmpty [("/cfg/a", Value.num 1)]
          [(⟨"pol1.rego", "package a", "package a"⟩ : ModuleFile String)]).1
          = Go.ret (some (Error.store se)))) :=
  callback_compile_failure (fun _ _ => ["rego_type_error"]) dbEmpty [("/cfg/a", Value.num 1)]
    [(⟨"pol1.rego", "package a", "package a"⟩ : ModuleFile String)]
    (by intro msg h; simp [writeData, MustParsePath, ParsePath, writeDataPath, HasPrefix,
      MakeDir, MakeDirRev, Read, Write, WriteAt, emptyObj, dbEmpty, splitSlash, Value.isObj,
      setKey] at h)
    (by intro txn _; simp)

/-! ## The document tree -/

theorem setKey_self (f : String → Option Value) (k : String) (c : Value) (h : f k = some c) :
    setKey f k c = f := by
  funext k'
  by_cases hk : k' = k
  · subst hk; simp [setKey, h]
  · simp [setKey, hk]

theorem setKey_setKey (f : String → Option Value) (k : String) (a b : Value) :
    setKey (setKey f k a) k b = setKey f k b := by
  funext k'
  by_cases hk : k' = k <;> simp [setKey, hk]

theorem setKey_comm (f : String → Option Value) (k k' : String) (a b : Value) (h : k ≠ k') :
    setKey (setKey f k a) k' b = setKey (setKey f k' b) k a := by
  funext x
  by_cases h1 : x = k
  · subst h1; simp [setKey, h]
  · by_cases h2 : x = k'
    · subst h2; simp [setKey, h1]
    · simp [setKey, h1, h2]

theorem setKey_same (f : String → Option Value) (k : String) (a : Value) :
    setKey f k a k = some a := by
  simp [setKey]

theorem setKey_other (f : String → Option Value) (k k' : String) (a : Value) (h : k' ≠ k) :
    setKey f k a k' = f k' := by
  simp [setKey, h]

/-- The only error of `Read` is "not found". -/
theorem Read_error (p : Path) : ∀ (d : Value) (e : StoreErr),
    Read d p = Except.error e → e = StoreErr.notFound := by
  induction p with
  | nil => intro d e h; simp [Read] at h
  | cons k ks ih =>
    intro d e h
    cases d with
    | obj f =>
      simp only [Read] at h
      split at h
      · exact ih _ _ h
      · injection h with h; exact h.symm
    | arr xs =>
      simp only [Read] at h
      split at h
      · split at h
        · exact ih _ _ h
        · injection h with h; exact h.symm
      · injection h with h; exact h.symm
    | null => simp only [Read] at h; injection h with h; exact h.symm
    | bool b => simp only [Read] at h; injection h with h; exact h.symm
    | num n => simp only [Read] at h; injection h with h; exact h.symm
    | str s => simp only [Read] at h; injection h with h; exact h.symm

theorem seqFree_none (p : Path) : seqFree none p = true := by
  cases p <;> rfl

theorem seqFree_of_append (p q : Path) : ∀ n : Option Value,
    seqFree n (p ++ q) = true → seqFree n p = true := by
  induction p with
  | nil => intro n _; cases n <;> simp [seqFree]
  | cons k ks ih =>
    intro n h
    cases n with
    | none => exact seqFree_none _
    | some d =>
      cases d with
      | obj f =>
        simp only [List.cons_append, seqFree] at h ⊢
        exact ih _ h
      | arr xs => simp [seqFree] at h
      | null => simp [seqFree]
      | bool b => simp [seqFree]
      | num m => simp [seqFree]
      | str t => simp [seqFree]

/-- On a path that does not run through a sequence, `Read` is `readDoc`. -/
theorem Read_toOption (p : Path) : ∀ d : Value, seqFree (some d) p = true →
    (Read d p).toOption = readDoc (some d) p := by
  induction p with
  | nil => intro d _; simp [Read, readDoc, Except.toOption]
  | cons k ks ih =>
    intro d h
    cases d with
    | obj f =>
      simp only [Read, readDoc]
      simp only [seqFree] at h
      cases hk : f k with
      | some c =>
        rw [hk] at h
        simpa using ih c h
      | none =>
        cases ks <;> simp [Except.toOption, readDoc]
    | arr xs => simp [seqFree] at h
    | null => simp [Read, readDoc, Except.toOption]
    | bool b => simp [Read, readDoc, Except.toOption]
    | num n => simp [Read, readDoc, Except.toOption]
    | str s => simp [Read, readDoc, Except.toOption]

theorem readDoc_none (p : Path) (h : p ≠ []) : readDoc none p = none := by
  cases p with
  | nil => exact absurd rfl h
  | cons k ks => simp [readDoc]

/-- On a path that does not run through a sequence, the write below the root is
`writeDoc`. -/
theorem WriteAt_toOption (ks : Path) : ∀ (d : Value) (k : String) (v : Value),
    seqFree (some d) (k :: ks) = true →
    (WriteAt d k ks v).toOption = writeDoc (some d) (k :: ks) v := by
  induction ks with
  | nil =>
    intro d k v h
    cases d with
    | arr xs => simp [seqFree] at h
    | obj f => simp [WriteAt, writeDoc, Except.toOption]
    | null => simp [WriteAt, writeDoc, Except.toOption]
    | bool b => simp [WriteAt, writeDoc, Except.toOption]
    | num n => simp [WriteAt, writeDoc, Except.toOption]
    | str s => simp [WriteAt, writeDoc, Except.toOption]
  | cons k' ks ih =>
    intro d k v h
    cases d with
    | obj f =>
      simp only [WriteAt, writeDoc]
      simp only [seqFree] at h
      cases hk : f k with
      | none => simp [Except.toOption, writeDoc]
      | some c =>
        rw [hk] at h
        have := ih c k' v h
        simp only
        cases hw : WriteAt c k' ks v with
        | ok c' => rw [hw] at this; simp [Except.toOption] at this ⊢; rw [← this]; simp
        | error e => rw [hw] at this; simp [Except.toOption] at this ⊢; rw [← this]; simp
    | arr xs => simp [seqFree] at h
    | null => simp [WriteAt, writeDoc, Except.toOption]
    | bool b => simp [WriteAt, writeDoc, Except.toOption]
    | num n => simp [WriteAt, writeDoc, Except.toOption]
    | str s => simp [WriteAt, writeDoc, Except.toOption]

theorem Write_toOption (d : Value) (p : Path) (v : Value) (h : p ≠ [])
    (hseq : seqFree (some d) p = true) :
    (Write d p v).toOption = writeDoc (some d) p v := by
  cases p with
  | nil => exact absurd rfl h
  | cons k ks => simpa [Write] using WriteAt_toOption ks d k v hseq

theorem readDoc_snoc_none (l : String) (ks : Path) : readDoc none (ks ++ [l]) = none :=
  readDoc_none _ (by simp)

/-- The step of `mkdirDoc` over the fields of a node. -/
theorem mkdirDoc_snoc_fields (l k : String) (ks : Path) (f : String → Option Value)
    (ih : mkdirDoc (f k) (ks ++ [l]) =
      match readDoc (f k) (ks ++ [l]) with
      | some node => if node.isObj then f k else none
      | none => (mkdirDoc (f k) ks).bind fun d => writeDoc (some d) (ks ++ [l]) emptyObj) :
    (mkdirDoc (f k) (ks ++ [l])).map (fun c => Value.obj (setKey f k c)) =
      match readDoc (f k) (ks ++ [l]) with
      | some node => if node.isObj then some (Value.obj f) else none
      | none => ((mkdirDoc (f k) ks).map fun c => Value.obj (setKey f k c)).bind
          fun d => writeDoc (some d) (k :: (ks ++ [l])) emptyObj := by
  rw [ih]
  cases hr : readDoc (f k) (ks ++ [l]) with
  | some node =>
    cases hfk : f k with
    | none => rw [hfk, readDoc_snoc_none] at hr; exact absurd hr (by simp)
    | some c =>
      by_cases hn : node.isObj = true
      · simp [hn, setKey_self f k c hfk]
      · simp [hn]
  | none =>
    simp only
    cases hm : mkdirDoc (f k) ks with
    | none => simp
    | some c => simp [writeDoc, setKey_same, setKey_setKey]

/-- How `mkdirDoc` proceeds at the last segment of a path: when the path exists
its node must be a mapping and nothing changes; otherwise the parent is made
addressable and an empty mapping is written. -/
theorem mkdirDoc_snoc (l : String) (p : Path) : ∀ n : Option Value,
    mkdirDoc n (p ++ [l]) =
      match readDoc n (p ++ [l]) with
      | some node => if node.isObj then n else none
      | none => (mkdirDoc n p).bind fun d => writeDoc (some d) (p ++ [l]) emptyObj := by
  induction p with
  | nil =>
    intro n
    cases n with
    | none => simp [mkdirDoc, readDoc, writeDoc, fieldsOf, emptyObj, Value.isObj]
    | some d =>
      cases d with
      | obj f =>
        cases hfl : f l with
        | none =>
          simp [mkdirDoc, readDoc, writeDoc, fieldsOf, emptyObj, Value.isObj, hfl]
        | some c =>
          by_cases hc : c.isObj = true
          · simp [mkdirDoc, readDoc, fieldsOf, hfl, hc, setKey_self f l c hfl]
          · simp [mkdirDoc, readDoc, fieldsOf, hfl, hc]
      | null => simp [mkdirDoc, readDoc, fieldsOf, Value.isObj]
      | bool b => simp [mkdirDoc, readDoc, fieldsOf, Value.isObj]
      | num m => simp [mkdirDoc, readDoc, fieldsOf, Value.isObj]
      | str t => simp [mkdirDoc, readDoc, fieldsOf, Value.isObj]
      | arr xs => simp [mkdirDoc, readDoc, fieldsOf, Value.isObj]
  | cons k ks ih =>
    intro n
    cases n with
    | none =>
      have h := mkdirDoc_snoc_fields l k ks (fun _ => none) (ih none)
      simp only [readDoc_snoc_none] at h
      simp only [List.cons_append, mkdirDoc, fieldsOf, Option.some_bind, readDoc]
      exact h
    | some d =>
      cases d with
      | obj f =>
        have h := mkdirDoc_snoc_fields l k ks f (ih (f k))
        simp only [List.cons_append, mkdirDoc, fieldsOf, Option.some_bind, readDoc]
        exact h
      | null => simp [mkdirDoc, readDoc, fieldsOf]
      | bool b => simp [mkdirDoc, readDoc, fieldsOf]
      | num m => simp [mkdirDoc, readDoc, fieldsOf]
      | str t => simp [mkdirDoc, readDoc, fieldsOf]
      | arr xs => simp [mkdirDoc, readDoc, fieldsOf]

/-- After `mkdirDoc` every node on the path is a mapping. -/
theorem mkdirDoc_seqFree (l : String) (p : Path) : ∀ (n : Option Value) (d' : Value),
    mkdirDoc n p = some d' → seqFree (some d') (p ++ [l]) = true := by
  induction p with
  | nil =>
    intro n d' h
    cases n with
    | none =>
      simp only [mkdirDoc, Option.some.injEq] at h
      subst h
      simp [emptyObj, seqFree]
    | some c =>
      cases c with
      | obj f =>
        simp only [mkdirDoc, Value.isObj, if_true, Option.some.injEq] at h
        subst h
        simp [seqFree]
      | arr xs => simp [mkdirDoc, Value.isObj] at h
      | null => simp [mkdirDoc, Value.isObj] at h
      | bool b => simp [mkdirDoc, Value.isObj] at h
      | num m => simp [mkdirDoc, Value.isObj] at h
      | str t => simp [mkdirDoc, Value.isObj] at h
  | cons k ks ih =>
    intro n d' h
    simp only [mkdirDoc] at h
    cases hf : fieldsOf n with
    | none => simp [hf] at h
    | some f =>
      rw [hf] at h
      simp only [Option.some_bind] at h
      cases hm : mkdirDoc (f k) ks with
      | none => simp [hm] at h
      | some c =>
        rw [hm] at h
        simp only [Option.map_some', Option.some.injEq] at h
        subst h
        simp only [List.cons_append, seqFree, setKey_same]
        exact ih _ _ hm

/-- On a path that does not run through a sequence, `storage.MakeDir`, with its
error forgotten, is `mkdirDoc` from the root; on the empty path it returns the
store as it is. -/
theorem MakeDir_toOption (d : Value) (p : Path) : seqFree (some d) p = true →
    (MakeDir d p).toOption = if p = [] then some d else mkdirDoc (some d) p := by
  induction p using List.reverseRecOn with
  | nil => intro _; simp [MakeDir, MakeDirRev, Except.toOption]
  | append_singleton p l ih =>
    intro hseq
    have ih := ih (seqFree_of_append p [l] _ hseq)
    have hne : p ++ [l] ≠ [] := by simp
    have hsnoc := mkdirDoc_snoc l p (some d)
    have hread := Read_toOption (p ++ [l]) d hseq
    have hrev : (p ++ [l]).reverse = l :: p.reverse := by simp
    have hrev' : (l :: p.reverse).reverse = p ++ [l] := by simp
    simp only [hne, if_false]
    unfold MakeDir
    rw [hrev]
    unfold MakeDirRev
    rw [hrev']
    cases hr : Read d (p ++ [l]) with
    | ok node =>
      rw [hr] at hread
      simp only [Except.toOption] at hread
      rw [hsnoc, ← hread]
      by_cases hn : node.isObj = true
      · simp [hn, Except.toOption]
      · simp [hn, Except.toOption]
    | error e =>
      have he := Read_error _ _ _ hr
      subst he
      rw [hr] at hread
      simp only [Except.toOption] at hread
      rw [hsnoc, ← hread]
      simp only
      have ih' : (MakeDirRev d p.reverse).toOption =
          if p = [] then some d else mkdirDoc (some d) p := ih
      cases hm : MakeDirRev d p.reverse with
      | error e' =>
        rw [hm] at ih'
        simp only [Except.toOption] at ih' ⊢
        by_cases hp : p = []
        · simp [hp] at ih'
        · simp only [hp, if_false] at ih'
          rw [← ih']
          rfl
      | ok d' =>
        rw [hm] at ih'
        simp only [Except.toOption] at ih'
        simp only
        by_cases hp : p = []
        · subst hp
          simp only [if_true, Option.some.injEq] at ih'
          subst ih'
          rw [Write_toOption d' ([] ++ [l]) emptyObj hne hseq]
          cases d' <;> simp [mkdirDoc, writeDoc, Value.isObj]
        · simp only [hp, if_false] at ih'
          rw [Write_toOption d' (p ++ [l]) emptyObj hne (mkdirDoc_seqFree l p _ _ ih'.symm),
            ← ih']
          rfl

/-- Putting a value is making the path addressable and then writing. -/
theorem putDoc_eq (v : Value) (p : Path) : ∀ n : Option Value,
    putDoc n p v = (mkdirDoc n p).bind fun d => writeDoc (some d) p v := by
  induction p with
  | nil =>
    intro n
    cases n with
    | none => simp [putDoc, mkdirDoc, writeDoc]
    | some c =>
      by_cases hc : c.isObj = true
      · simp [putDoc, mkdirDoc, writeDoc, hc]
      · simp [putDoc, mkdirDoc, hc]
  | cons k ks ih =>
    intro n
    simp only [putDoc, mkdirDoc]
    cases hf : fieldsOf n with
    | none => simp
    | some f =>
      simp only [Option.some_bind]
      rw [ih (f k)]
      cases hm : mkdirDoc (f k) ks with
      | none => simp
      | some c => simp [writeDoc, setKey_same, setKey_setKey]

/-- One round of the loop of `writeData` on a path that is not the root and does
not run through a sequence, with errors forgotten. -/
theorem MakeDir_Write_toOption (d : Value) (p : Path) (v : Value) (hp : p ≠ [])
    (hseq : seqFree (some d) p = true) :
    (match MakeDir d p with
      | Except.error _ => none
      | Except.ok d₁ => (Write d₁ p v).toOption) = putDoc (some d) p v := by
  have hm := MakeDir_toOption d p hseq
  simp only [hp, if_false] at hm
  rw [putDoc_eq, ← hm]
  cases hmk : MakeDir d p with
  | error e => simp [Except.toOption]
  | ok d₁ =>
    rw [hmk] at hm
    simp only [Except.toOption] at hm
    have hseq₁ : seqFree (some d₁) p = true :=
      seqFree_of_append p [""] _ (mkdirDoc_seqFree "" p _ _ hm.symm)
    simp [Except.toOption, ← Write_toOption d₁ p v hp hseq₁]

/-- One round of the loop of `writeData` on the root path, with errors
forgotten. -/
theorem MakeDir_Write_root (d : Value) (v : Value) :
    (match MakeDir d [] with
      | Except.error _ => none
      | Except.ok d₁ => (Write d₁ [] v).toOption) = if v.isObj then some v else none := by
  by_cases hv : v.isObj = true <;> simp [MakeDir, MakeDirRev, Write, hv, Except.toOption]

theorem MustParsePath_eq (s : String) :
    MustParsePath s = match ParsePath s with
      | some p => Go.ret p
      | none => Go.panic s := rfl

/-- Putting a value below a node of given fields. -/
theorem putDoc_cons_fields (n : Option Value) (f : String → Option Value)
    (hf : fieldsOf n = some f) (k : String) (ks : Path) (v : Value) :
    putDoc n (k :: ks) v = (putDoc (f k) ks v).map fun c => Value.obj (setKey f k c) := by
  simp [putDoc, hf]

theorem putDoc_cons_obj (f : String → Option Value) (k : String) (ks : Path) (v : Value) :
    putDoc (some (Value.obj f)) (k :: ks) v =
      (putDoc (f k) ks v).map fun c => Value.obj (setKey f k c) :=
  putDoc_cons_fields (some (Value.obj f)) f rfl k ks v

/-- Two rounds of the loop of `writeData` on paths of which neither is a prefix
of the other commute. -/
theorem putDoc_comm (v w : Value) (p : Path) : ∀ (q : Path) (n : Option Value),
    ¬ p <+: q → ¬ q <+: p →
    (putDoc n p v).bind (fun d => putDoc (some d) q w) =
      (putDoc n q w).bind (fun d => putDoc (some d) p v) := by
  induction p with
  | nil => intro q n h _; exact absurd (List.nil_prefix) h
  | cons k ks ih =>
    intro q n hpq hqp
    cases q with
    | nil => exact absurd (List.nil_prefix) hqp
    | cons k' ks' =>
      cases hf : fieldsOf n with
      | none => simp [putDoc, hf]
      | some f =>
        rw [putDoc_cons_fields n f hf, putDoc_cons_fields n f hf]
        by_cases hk : k = k'
        · subst hk
          have h1 : ¬ ks <+: ks' := fun h => hpq ((List.cons_prefix_cons).mpr ⟨rfl, h⟩)
          have h2 : ¬ ks' <+: ks := fun h => hqp ((List.cons_prefix_cons).mpr ⟨rfl, h⟩)
          have hih := ih ks' (f k) h1 h2
          cases ha : putDoc (f k) ks v with
          | none =>
            rw [ha] at hih
            simp only [Option.map_none', Option.none_bind] at hih ⊢
            cases hb : putDoc (f k) ks' w with
            | none => simp
            | some c₂ =>
              rw [hb] at hih
              simp only [Option.some_bind] at hih
              simp [putDoc_cons_obj, setKey_same, ← hih]
          | some c₁ =>
            rw [ha] at hih
            simp only [Option.some_bind] at hih
            simp only [Option.map_some', Option.some_bind, putDoc_cons_obj, setKey_same,
              setKey_setKey, hih]
            cases hb : putDoc (f k) ks' w with
            | none => simp
            | some c₂ => simp [putDoc_cons_obj, setKey_same, setKey_setKey]
        · cases ha : putDoc (f k) ks v with
          | none =>
            cases hb : putDoc (f k') ks' w with
            | none => simp
            | some c₂ => simp [putDoc_cons_obj, setKey_other f k' k c₂ hk, ha]
          | some c₁ =>
            cases hb : putDoc (f k') ks' w with
            | none => simp [putDoc_cons_obj, setKey_other f k k' c₁ (Ne.symm hk), hb]
            | some c₂ =>
              simp [putDoc_cons_obj, setKey_other f k' k c₂ hk,
                setKey_other f k k' c₁ (Ne.symm hk), ha, hb, setKey_comm f k k' c₁ c₂ hk]

/-- Putting a mapping where it has just been put changes nothing. -/
theorem putDoc_idem (v : Value) (hv : v.isObj = true) (p : Path) :
    ∀ (n : Option Value) (d : Value), putDoc n p v = some d → putDoc (some d) p v = some d := by
  induction p with
  | nil =>
    intro n d h
    cases n with
    | none =>
      simp only [putDoc, Option.some.injEq] at h
      subst h
      simp [putDoc, hv]
    | some c =>
      by_cases hc : c.isObj = true
      · simp only [putDoc, hc, if_true, Option.some.injEq] at h
        subst h
        simp [putDoc, hv]
      · simp [putDoc, hc] at h
  | cons k ks ih =>
    intro n d h
    cases hf : fieldsOf n with
    | none => simp [putDoc, hf] at h
    | some f =>
      rw [putDoc_cons_fields n f hf] at h
      cases ha : putDoc (f k) ks v with
      | none => simp [ha] at h
      | some c =>
        rw [ha] at h
        simp only [Option.map_some', Option.some.injEq] at h
        subst h
        simp [putDoc_cons_obj, setKey_same, setKey_setKey, ih (f k) c ha]

theorem pathsApart_symm (a b : String) (h : pathsApart a b = true) : pathsApart b a = true := by
  unfold pathsApart at h ⊢
  cases ha : docPath a with
  | none => cases hb : docPath b <;> simp
  | some p =>
    cases hb : docPath b with
    | none => simp
    | some q =>
      rw [ha, hb] at h
      simp only [Bool.and_eq_true] at h ⊢
      exact ⟨h.2, h.1⟩

/-- Two rounds of the loop of `writeData` for keys whose paths are apart
commute. -/
theorem putKey_comm (d : Value) (a b : String) (v w : Value) (h : pathsApart a b = true) :
    (putKey d a v).bind (fun d' => putKey d' b w) =
      (putKey d b w).bind (fun d' => putKey d' a v) := by
  unfold pathsApart at h
  cases ha : docPath a with
  | none =>
    have h1 : ∀ d', putKey d' a v = none := fun d' => by simp [putKey, ha]
    simp [h1]
  | some p =>
    cases hb : docPath b with
    | none =>
      have h1 : ∀ d', putKey d' b w = none := fun d' => by simp [putKey, hb]
      simp [h1]
    | some q =>
      rw [ha, hb] at h
      simp only [Bool.and_eq_true, Bool.not_eq_true', ← Bool.not_eq_true,
        List.isPrefixOf_iff_prefix] at h
      cases p with
      | nil => exact absurd List.nil_prefix h.1
      | cons k ks =>
        cases q with
        | nil => exact absurd List.nil_prefix h.2
        | cons k' ks' =>
          have h1 : ∀ d', putKey d' a v = putDoc (some d') (k :: ks) v :=
            fun d' => by simp [putKey, ha]
          have h2 : ∀ d', putKey d' b w = putDoc (some d') (k' :: ks') w :=
            fun d' => by simp [putKey, hb]
          simp only [h1, h2]
          exact putDoc_comm v w (k :: ks) (k' :: ks') (some d) h.1 h.2

/-- Putting a mapping under the key under which it has just been put changes
nothing. -/
theorem putKey_idem (d d' : Value) (a : String) (v : Value) (hv : v.isObj = true)
    (h : putKey d a v = some d') : putKey d' a v = some d' := by
  unfold putKey at h ⊢
  cases ha : docPath a with
  | none => simp [ha] at h
  | some p =>
    rw [ha] at h
    cases p with
    | nil =>
      simp only [hv, if_true, Option.some.injEq] at h ⊢
      exact h
    | cons k ks =>
      simp only at h ⊢
      exact putDoc_idem v hv (k :: ks) (some d) d' h

/-- A round that changes nothing still changes nothing after a round for a key
that is apart. -/
theorem putKey_fixed_after (d d' : Value) (a b : String) (v w : Value)
    (h : pathsApart a b = true) (ha : putKey d a v = some d) (hb : putKey d b w = some d') :
    putKey d' a v = some d' := by
  have hc := putKey_comm d a b v w h
  rw [ha, hb] at hc
  simp only [Option.some_bind] at hc
  rw [← hc, hb]

theorem putAll_fixed_after (l : List (String × Value)) : ∀ (d d' : Value) (a : String) (v : Value),
    (∀ kv ∈ l, pathsApart a kv.1 = true) → putKey d a v = some d → putAll d l = some d' →
    putKey d' a v = some d' := by
  induction l with
  | nil =>
    intro d d' a v _ ha h
    simp only [putAll, Option.some.injEq] at h
    subst h
    exact ha
  | cons kv rest ih =>
    intro d d' a v hap ha h
    obtain ⟨b, w⟩ := kv
    simp only [putAll] at h
    cases hb : putKey d b w with
    | none => simp [hb] at h
    | some d₁ =>
      rw [hb] at h
      simp only [Option.some_bind] at h
      have h1 := putKey_fixed_after d d₁ a b v w (hap (b, w) (List.mem_cons_self _ _)) ha hb
      exact ih d₁ d' a v (fun kv hkv => hap kv (List.mem_cons_of_mem _ hkv)) h1 h

/-- Putting a value that is not a mapping where it has just been put fails: the
path now holds that value, and it is not a mapping. -/
theorem putDoc_again_nonobj (v : Value) (hv : v.isObj = false) (p : Path) :
    ∀ (n : Option Value) (d : Value), putDoc n p v = some d → putDoc (some d) p v = none := by
  induction p with
  | nil =>
    intro n d h
    cases n with
    | none =>
      simp only [putDoc, Option.some.injEq] at h
      subst h
      simp [putDoc, hv]
    | some c =>
      by_cases hc : c.isObj = true
      · simp only [putDoc, hc, if_true, Option.some.injEq] at h
        subst h
        simp [putDoc, hv]
      · simp [putDoc, hc] at h
  | cons k ks ih =>
    intro n d h
    cases hf : fieldsOf n with
    | none => simp [putDoc, hf] at h
    | some f =>
      rw [putDoc_cons_fields n f hf] at h
      cases ha : putDoc (f k) ks v with
      | none => simp [ha] at h
      | some c =>
        rw [ha] at h
        simp only [Option.map_some', Option.some.injEq] at h
        subst h
        simp [putDoc_cons_obj, setKey_same, ih (f k) c ha]

theorem putKey_again_nonobj (d d' : Value) (a : String) (v : Value) (hv : v.isObj = false)
    (h : putKey d a v = some d') : putKey d' a v = none := by
  unfold putKey at h ⊢
  cases ha : docPath a with
  | none => rfl
  | some p =>
    rw [ha] at h
    cases p with
    | nil => simp [hv] at h
    | cons k ks =>
      simp only at h ⊢
      exact putDoc_again_nonobj v hv (k :: ks) (some d) d' h

/-- A round that fails still fails after a round for a key that is apart. -/
theorem putKey_failed_after (d d' : Value) (a b : String) (v w : Value)
    (h : pathsApart a b = true) (ha : putKey d a v = none) (hb : putKey d b w = some d') :
    putKey d' a v = none := by
  have hc := putKey_comm d a b v w h
  rw [ha, hb] at hc
  simp only [Option.some_bind, Option.none_bind] at hc
  rw [← hc]

theorem putAll_failed_after (l : List (String × Value)) :
    ∀ (d d' : Value) (a : String) (v : Value),
    (∀ kv ∈ l, pathsApart a kv.1 = true) → putKey d a v = none → putAll d l = some d' →
    putKey d' a v = none := by
  induction l with
  | nil =>
    intro d d' a v _ ha h
    simp only [putAll, Option.some.injEq] at h
    subst h
    exact ha
  | cons kv rest ih =>
    intro d d' a v hap ha h
    obtain ⟨b, w⟩ := kv
    simp only [putAll] at h
    cases hb : putKey d b w with
    | none => simp [hb] at h
    | some d₁ =>
      rw [hb] at h
      simp only [Option.some_bind] at h
      have h1 := putKey_failed_after d d₁ a b v w (hap (b, w) (List.mem_cons_self _ _)) ha hb
      exact ih d₁ d' a v (fun kv hkv => hap kv (List.mem_cons_of_mem _ hkv)) h1 h

/-- After the loop has run over keys whose paths are pairwise apart, another round
for any of the keys changes nothing when its value is a mapping, and fails when
its value is a scalar or a sequence. -/
theorem putAll_all_again (l : List (String × Value)) : ∀ (d d' : Value),
    l.Pairwise (fun a b => pathsApart a.1 b.1 = true) → putAll d l = some d' →
    ∀ kv ∈ l, (kv.2.isObj = true → putKey d' kv.1 kv.2 = some d') ∧
      (kv.2.isObj = false → putKey d' kv.1 kv.2 = none) := by
  induction l with
  | nil => intro d d' _ _ kv hkv; exact absurd hkv (List.not_mem_nil _)
  | cons x rest ih =>
    intro d d' hap h kv hkv
    obtain ⟨a, v⟩ := x
    rw [List.pairwise_cons] at hap
    simp only [putAll] at h
    cases ha : putKey d a v with
    | none => simp [ha] at h
    | some d₁ =>
      rw [ha] at h
      simp only [Option.some_bind] at h
      rcases List.mem_cons.mp hkv with rfl | hmem
      · constructor
        · intro hv
          have h1 := putKey_idem d d₁ a v hv ha
          exact putAll_fixed_after rest d₁ d' a v (fun kv hkv => hap.1 kv hkv) h1 h
        · intro hv
          have h1 := putKey_again_nonobj d d₁ a v hv ha
          exact putAll_failed_after rest d₁ d' a v (fun kv hkv => hap.1 kv hkv) h1 h
      · exact ih d₁ d' hap.2 h kv hmem

/-- The loop fails when every round either changes nothing or fails, and some
round fails. -/
theorem putAll_none_of_failing (l : List (String × Value)) (d : Value)
    (h : ∀ kv ∈ l, putKey d kv.1 kv.2 = some d ∨ putKey d kv.1 kv.2 = none)
    (hex : ∃ kv ∈ l, putKey d kv.1 kv.2 = none) : putAll d l = none := by
  induction l with
  | nil =>
    obtain ⟨kv, hkv, _⟩ := hex
    exact absurd hkv (List.not_mem_nil _)
  | cons x rest ih =>
    obtain ⟨a, v⟩ := x
    simp only [putAll]
    rcases h (a, v) (List.mem_cons_self _ _) with h1 | h1
    · simp only at h1
      rw [h1]
      simp only [Option.some_bind]
      apply ih (fun kv hkv => h kv (List.mem_cons_of_mem _ hkv))
      obtain ⟨kv, hkv, hnone⟩ := hex
      rcases List.mem_cons.mp hkv with rfl | hmem
      · simp only at hnone
        rw [h1] at hnone
        exact absurd hnone (by simp)
      · exact ⟨kv, hmem, hnone⟩
    · simp only at h1
      rw [h1]
      rfl

theorem putAll_of_fixed (l : List (String × Value)) (d : Value)
    (h : ∀ kv ∈ l, putKey d kv.1 kv.2 = some d) : putAll d l = some d := by
  induction l with
  | nil => rfl
  | cons x rest ih =>
    obtain ⟨a, v⟩ := x
    simp only [putAll]
    rw [h (a, v) (List.mem_cons_self _ _)]
    exact ih (fun kv hkv => h kv (List.mem_cons_of_mem _ hkv))

/-- The loop of `writeData` gives the same outcome in any two visiting orders
when the paths are pairwise apart. -/
theorem putAll_perm (l₁ l₂ : List (String × Value)) (hperm : l₁.Perm l₂) :
    l₁.Pairwise (fun a b => pathsApart a.1 b.1 = true) →
    ∀ d : Value, putAll d l₁ = putAll d l₂ := by
  induction hperm with
  | nil => intro _ d; rfl
  | cons x _ ih =>
    intro hap d
    obtain ⟨a, v⟩ := x
    rw [List.pairwise_cons] at hap
    simp only [putAll]
    cases putKey d a v with
    | none => rfl
    | some d₁ => simp only [Option.some_bind]; exact ih hap.2 d₁
  | swap x y l =>
    intro hap d
    obtain ⟨a, v⟩ := x
    obtain ⟨b, w⟩ := y
    rw [List.pairwise_cons] at hap
    have hba : pathsApart b a = true := hap.1 (a, v) (List.mem_cons_self _ _)
    have hc := putKey_comm d b a w v hba
    simp only [putAll]
    cases h1 : putKey d b w with
    | none =>
      rw [h1] at hc
      simp only [Option.none_bind] at hc ⊢
      cases h2 : putKey d a v with
      | none => rfl
      | some d₂ =>
        rw [h2] at hc
        simp only [Option.some_bind] at hc ⊢
        rw [← hc]
        rfl
    | some d₁ =>
      rw [h1] at hc
      simp only [Option.some_bind] at hc ⊢
      cases h2 : putKey d a v with
      | none =>
        rw [h2] at hc
        simp only [Option.none_bind] at hc ⊢
        rw [hc]
        rfl
      | some d₂ =>
        rw [h2] at hc
        simp only [Option.some_bind] at hc ⊢
        cases h3 : putKey d₁ a v with
        | none => rw [h3] at hc; rw [← hc]
        | some d₃ => rw [h3] at hc; rw [← hc]
  | trans h₁ _ ih₁ ih₂ =>
    intro hap d
    have hap' := (List.Perm.pairwise_iff
      (fun {a b} h => pathsApart_symm a.1 b.1 h) h₁).mp hap
    rw [ih₁ hap d, ih₂ hap' d]

/-! ## Paths that do not run through a sequence -/

theorem fieldsOf_seqFree (n : Option Value) (f : String → Option Value) (k : String)
    (ks : Path) (hf : fieldsOf n = some f) (h : seqFree n (k :: ks) = true) :
    seqFree (f k) ks = true := by
  cases n with
  | none =>
    simp only [fieldsOf, Option.some.injEq] at hf
    subst hf
    exact seqFree_none _
  | some d =>
    cases d with
    | obj g =>
      simp only [fieldsOf, Option.some.injEq] at hf
      subst hf
      simpa [seqFree] using h
    | arr xs => simp [fieldsOf] at hf
    | null => simp [fieldsOf] at hf
    | bool b => simp [fieldsOf] at hf
    | num m => simp [fieldsOf] at hf
    | str t => simp [fieldsOf] at hf

/-- After a value has been put at a path, the path does not run through a
sequence. -/
theorem putDoc_seqFree_self (v : Value) (p : Path) : ∀ (n : Option Value) (d' : Value),
    putDoc n p v = some d' → seqFree (some d') p = true := by
  induction p with
  | nil => intro n d' _; simp [seqFree]
  | cons k ks ih =>
    intro n d' h
    cases hf : fieldsOf n with
    | none => simp [putDoc, hf] at h
    | some f =>
      rw [putDoc_cons_fields n f hf] at h
      cases ha : putDoc (f k) ks v with
      | none => simp [ha] at h
      | some c =>
        rw [ha] at h
        simp only [Option.map_some', Option.some.injEq] at h
        subst h
        simp only [seqFree, setKey_same]
        exact ih _ _ ha

/-- Putting a value at a path that is not a prefix of `p` leaves `p` free of
sequences. -/
theorem putDoc_seqFree_other (w : Value) (q : Path) :
    ∀ (p : Path) (n : Option Value) (d' : Value),
    putDoc n q w = some d' → ¬ q <+: p → seqFree n p = true → seqFree (some d') p = true := by
  induction q with
  | nil => intro p n d' _ hq _; exact absurd List.nil_prefix hq
  | cons k' ks' ih =>
    intro p n d' h hq hs
    cases p with
    | nil => simp [seqFree]
    | cons k ks =>
      cases hf : fieldsOf n with
      | none => simp [putDoc, hf] at h
      | some f =>
        rw [putDoc_cons_fields n f hf] at h
        have hs' := fieldsOf_seqFree n f k ks hf hs
        cases ha : putDoc (f k') ks' w with
        | none => simp [ha] at h
        | some c =>
          rw [ha] at h
          simp only [Option.map_some', Option.some.injEq] at h
          subst h
          simp only [seqFree]
          by_cases hk : k = k'
          · subst hk
            rw [setKey_same]
            exact ih ks (f k) c ha (fun hpre => hq ((List.cons_prefix_cons).mpr ⟨rfl, hpre⟩)) hs'
          · rw [setKey_other f k' k c hk]
            exact hs'

theorem putKey_seqFree_self (d d' : Value) (a : String) (v : Value)
    (h : putKey d a v = some d') : seqFreeKey d' a = true := by
  unfold putKey at h
  unfold seqFreeKey
  cases ha : docPath a with
  | none => rfl
  | some p =>
    rw [ha] at h
    cases p with
    | nil => simp [seqFree]
    | cons k ks =>
      simp only at h ⊢
      exact putDoc_seqFree_self v (k :: ks) (some d) d' h

theorem putKey_seqFree_other (d d' : Value) (a b : String) (w : Value)
    (hap : pathsApart a b = true) (h : putKey d b w = some d') (hs : seqFreeKey d a = true) :
    seqFreeKey d' a = true := by
  unfold pathsApart at hap
  unfold putKey at h
  unfold seqFreeKey at hs ⊢
  cases ha : docPath a with
  | none => rfl
  | some p =>
    rw [ha] at hap hs
    cases hb : docPath b with
    | none => rw [hb] at h; simp at h
    | some q =>
      rw [hb] at hap h
      simp only [Bool.and_eq_true, Bool.not_eq_true', ← Bool.not_eq_true,
        List.isPrefixOf_iff_prefix] at hap
      cases q with
      | nil => exact absurd List.nil_prefix hap.2
      | cons k' ks' =>
        simp only at h hs ⊢
        exact putDoc_seqFree_other w (k' :: ks') p (some d) d' h hap.2 hs

theorem putAll_seqFree_other (l : List (String × Value)) : ∀ (d d' : Value) (a : String),
    (∀ kv ∈ l, pathsApart a kv.1 = true) → seqFreeKey d a = true → putAll d l = some d' →
    seqFreeKey d' a = true := by
  induction l with
  | nil =>
    intro d d' a _ hs h
    simp only [putAll, Option.some.injEq] at h
    subst h
    exact hs
  | cons kv rest ih =>
    intro d d' a hap hs h
    obtain ⟨b, w⟩ := kv
    simp only [putAll] at h
    cases hb : putKey d b w with
    | none => simp [hb] at h
    | some d₁ =>
      rw [hb] at h
      simp only [Option.some_bind] at h
      have h1 := putKey_seqFree_other d d₁ a b w (hap (b, w) (List.mem_cons_self _ _)) hb hs
      exact ih d₁ d' a (fun kv hkv => hap kv (List.mem_cons_of_mem _ hkv)) h1 h

/-- After the loop has run over keys whose paths are pairwise apart, none of the
paths runs through a sequence. -/
theorem putAll_seqFree (l : List (String × Value)) : ∀ (d d' : Value),
    l.Pairwise (fun a b => pathsApart a.1 b.1 = true) → putAll d l = some d' →
    ∀ kv ∈ l, seqFreeKey d' kv.1 = true := by
  induction l with
  | nil => intro d d' _ _ kv hkv; exact absurd hkv (List.not_mem_nil _)
  | cons x rest ih =>
    intro d d' hap h kv hkv
    obtain ⟨a, v⟩ := x
    rw [List.pairwise_cons] at hap
    simp only [putAll] at h
    cases ha : putKey d a v with
    | none => simp [ha] at h
    | some d₁ =>
      rw [ha] at h
      simp only [Option.some_bind] at h
      rcases List.mem_cons.mp hkv with rfl | hmem
      · exact putAll_seqFree_other rest d₁ d' a (fun kv hkv => hap.1 kv hkv)
          (putKey_seqFree_self d d₁ a v ha) h
      · exact ih d₁ d' hap.2 h kv hmem

/-- When the loop succeeds every key has parsed. -/
theorem putAll_parses (l : List (String × Value)) : ∀ (d d' : Value),
    putAll d l = some d' → ∀ kv ∈ l, (docPath kv.1).isSome = true := by
  induction l with
  | nil => intro d d' _ kv hkv; exact absurd hkv (List.not_mem_nil _)
  | cons x rest ih =>
    intro d d' h kv hkv
    obtain ⟨a, v⟩ := x
    simp only [putAll] at h
    cases ha : putKey d a v with
    | none => simp [ha] at h
    | some d₁ =>
      rw [ha] at h
      simp only [Option.some_bind] at h
      rcases List.mem_cons.mp hkv with rfl | hmem
      · cases hp : docPath a with
        | none => simp [putKey, hp] at ha
        | some p => rfl
      · exact ih d₁ d' h kv hmem

/-- The loop of `writeData` panics only on a key that does not parse. -/
theorem writeData_panic_key (visit : List (String × Value)) : ∀ (txn : Db) (msg : String),
    writeData txn visit = Res.panic msg → ∃ kv ∈ visit, docPath kv.1 = none := by
  induction visit with
  | nil => intro txn msg h; simp [writeData] at h
  | cons kv rest ih =>
    intro txn msg h
    obtain ⟨key, v⟩ := kv
    simp only [writeData, MustParsePath_eq] at h
    cases hp : ParsePath (writeDataPath key) with
    | none => exact ⟨(key, v), List.mem_cons_self _ _, hp⟩
    | some p =>
      rw [hp] at h
      simp only at h
      split at h
      · simp at h
      · split at h
        · simp at h
        · obtain ⟨kv, hkv, hnone⟩ := ih _ _ h
          exact ⟨kv, List.mem_cons_of_mem _ hkv, hnone⟩

/-- One round of the loop of `writeData` for a key whose path does not run
through a sequence, with errors and panics forgotten. -/
theorem writeData_round (d : Value) (key : String) (v : Value)
    (hseq : seqFreeKey d key = true) :
    (match ParsePath (writeDataPath key) with
      | none => none
      | some p =>
        match MakeDir d p with
        | Except.error _ => none
        | Except.ok d₁ => (Write d₁ p v).toOption) = putKey d key v := by
  unfold putKey docPath
  unfold seqFreeKey docPath at hseq
  cases hp : ParsePath (writeDataPath key) with
  | none => rfl
  | some p =>
    rw [hp] at hseq
    cases p with
    | nil => exact MakeDir_Write_root d v
    | cons k ks => exact MakeDir_Write_toOption d (k :: ks) v (by simp) hseq

/-- The loop of `writeData`, with errors and panics forgotten, is `putAll` on the
document namespace, when the paths are pairwise apart and none runs through a
sequence; the policy namespace is not touched. -/
theorem writeData_toOption (visit : List (String × Value)) : ∀ txn : Db,
    visit.Pairwise (fun a b => pathsApart a.1 b.1 = true) →
    (∀ kv ∈ visit, seqFreeKey txn.data kv.1 = true) →
    (writeData txn visit).toOption =
      (putAll txn.data visit).map fun d => { txn with data := d } := by
  induction visit with
  | nil => intro txn _ _; simp [writeData, putAll, Res.toOption]
  | cons kv rest ih =>
    intro txn hap hseq
    obtain ⟨key, v⟩ := kv
    rw [List.pairwise_cons] at hap
    have hround := writeData_round txn.data key v (hseq (key, v) (List.mem_cons_self _ _))
    simp only [writeData, putAll, MustParsePath_eq]
    cases hp : ParsePath (writeDataPath key) with
    | none =>
      rw [hp] at hround
      simp only at hround
      simp [Res.toOption, ← hround]
    | some p =>
      rw [hp] at hround
      simp only at hround ⊢
      cases hm : MakeDir txn.data p with
      | error e =>
        rw [hm] at hround
        simp only at hround
        simp [Res.toOption, ← hround]
      | ok d₁ =>
        rw [hm] at hround
        simp only at hround ⊢
        cases hw : Write d₁ p v with
        | error e =>
          rw [hw] at hround
          simp only [Except.toOption] at hround
          simp [Res.toOption, ← hround]
        | ok d₂ =>
          rw [hw] at hround
          simp only [Except.toOption] at hround
          have hrest : ∀ kv ∈ rest, seqFreeKey d₂ kv.1 = true := fun kv hkv =>
            putKey_seqFree_other txn.data d₂ kv.1 key v
              (pathsApart_symm _ _ (hap.1 kv hkv)) hround.symm
              (hseq kv (List.mem_cons_of_mem _ hkv))
          rw [← hround, ih { txn with data := d₂ } hap.2 hrest]
          simp

/-! ## Visiting order and repeated commits -/

theorem Res.eq_ok_of_toOption {α : Type} (r : Res α) (a : α) (h : r.toOption = some a) :
    r = Res.ok a := by
  cases r with
  | ok b => simp only [Res.toOption, Option.some.injEq] at h; rw [h]
  | err e => simp [Res.toOption] at h
  | panic msg => simp [Res.toOption] at h

/-- Counterexample to C9 as stated.  With the documents `/a` and `/a/b` on an
empty store, visiting `/a` first fails (the scalar at `/a` is in the way of
`/a/b`) and visiting `/a/b` first succeeds.  With documents on paths that are
apart, `/a/x` and `/b/y`, on a store holding scalars at `/a` and `/b`, the two
orders return different errors.  And with the documents `/a/0` and `/a/1` on a
store holding a sequence at `/a`, both orders succeed and leave different
content: each write is inserted into the sequence. -/
theorem writeData_order_counterexample :
    ([("/a", Value.num 1), ("/a/b", Value.num 2)] : List (String × Value)).Perm
      [("/a/b", Value.num 2), ("/a", Value.num 1)] ∧
    (writeData dbEmpty [("/a", Value.num 1), ("/a/b", Value.num 2)]).toError
      = some (Error.store (StoreErr.writeConflict ["a"])) ∧
    (writeData dbEmpty [("/a/b", Value.num 2), ("/a", Value.num 1)]).isOk = true ∧
    (writeData dbScalarsAtAB [("/a/x", Value.num 1), ("/b/y", Value.num 2)]).toError
      = some (Error.store (StoreErr.writeConflict ["a"])) ∧
    (writeData dbScalarsAtAB [("/b/y", Value.num 2), ("/a/x", Value.num 1)]).toError
      = some (Error.store (StoreErr.writeConflict ["b"])) ∧
    pathsApart "/a/0" "/a/1" = true ∧
    ((writeData dbSeqsAtA [("/a/0", objX), ("/a/1", objY)]).toOption.map
      fun t => (Read t.data ["a", "1", "y"]).isOk) = some true ∧
    ((writeData dbSeqsAtA [("/a/1", objY), ("/a/0", objX)]).toOption.map
      fun t => (Read t.data ["a", "1", "y"]).isOk) = some false :=
  ⟨List.Perm.swap _ _ _, by decide, by decide, by decide, by decide, by decide, by decide,
    by decide⟩

/-- **C9 (amended).** When every document key parses, no document's path is a
prefix of another's (equal paths included), and no document's path runs through
a sequence of the store, any two visiting orders of the mapping's entries
either both return an error or both succeed, and when they succeed they leave
the same store; neither order panics. -/
theorem writeData_order_independent (txn : Db) (visit₁ visit₂ : List (String × Value))
    (hperm : visit₁.Perm visit₂)
    (hparse : ∀ kv ∈ visit₁, (docPath kv.1).isSome = true)
    (hapart : visit₁.Pairwise (fun a b => pathsApart a.1 b.1 = true))
    (hseq : ∀ kv ∈ visit₁, seqFreeKey txn.data kv.1 = true) :
    (writeData txn visit₁).toOption = (writeData txn visit₂).toOption ∧
    (∀ msg, writeData txn visit₁ ≠ Res.panic msg) ∧
    (∀ msg, writeData txn visit₂ ≠ Res.panic msg) := by
  have hapart₂ : visit₂.Pairwise (fun a b => pathsApart a.1 b.1 = true) :=
    (List.Perm.pairwise_iff (fun {a b} h => pathsApart_symm a.1 b.1 h) hperm).mp hapart
  have hseq₂ : ∀ kv ∈ visit₂, seqFreeKey txn.data kv.1 = true :=
    fun kv hkv => hseq kv (hperm.mem_iff.mpr hkv)
  refine ⟨?_, ?_, ?_⟩
  · rw [writeData_toOption visit₁ txn hapart hseq, writeData_toOption visit₂ txn hapart₂ hseq₂,
      putAll_perm visit₁ visit₂ hperm hapart]
  · intro msg h
    obtain ⟨kv, hkv, hnone⟩ := writeData_panic_key visit₁ txn msg h
    have := hparse kv hkv
    rw [hnone] at this
    exact absurd this (by simp)
  · intro msg h
    obtain ⟨kv, hkv, hnone⟩ := writeData_panic_key visit₂ txn msg h
    have := hparse kv (hperm.mem_iff.mpr hkv)
    rw [hnone] at this
    exact absurd this (by simp)

/-- Witness for C9 (amended): the documents `/a/x` and `/b` in both orders. -/
theorem writeData_order_independent_witness :
    ((writeData dbEmpty [("/a/x", Value.num 1), ("/b", emptyObj)]).toOption =
      (writeData dbEmpty [("/b", emptyObj), ("/a/x", Value.num 1)]).toOption ∧
    (∀ msg, writeData dbEmpty [("/a/x", Value.num 1), ("/b", emptyObj)] ≠ Res.panic msg) ∧
    (∀ msg, writeData dbEmpty [("/b", emptyObj), ("/a/x", Value.num 1)] ≠ Res.panic msg)) ∧
    (writeData dbEmpty [("/a/x", Value.num 1), ("/b", emptyObj)]).isOk = true :=
  ⟨writeData_order_independent dbEmpty [("/a/x", Value.num 1), ("/b", emptyObj)]
      [("/b", emptyObj), ("/a/x", Value.num 1)] (List.Perm.swap _ _ _) (by decide) (by decide)
      (by decide),
    by decide⟩

theorem Db.eq_of_fields (a b : Db) (h₁ : a.data = b.data) (h₂ : ∀ p, a.policies p = b.policies p) :
    a = b := by
  obtain ⟨da, pa⟩ := a
  obtain ⟨db, pb⟩ := b
  simp only at h₁ h₂
  have h₃ : pa = pb := funext h₂
  rw [h₁, h₃]

/-- Counterexample to C6 as stated.  With a scalar document at `/a`, no policy
files and a compiler that accepts, the first commit succeeds and the second
fails with a write conflict, because `MakeDir` finds the scalar that the first
commit wrote at `/a`.  With the document `/a/0` on a store holding a sequence
at `/a`, both commits succeed and the second changes the store: it inserts the
document into the sequence once more.  And with mappings at `/a` and `/a/b`,
committed in the order `/a`, `/a/b` and then again in the order `/a/b`, `/a`,
both commits succeed and the second removes `/a/b`. -/
theorem callback_twice_counterexample :
    (callback (fun _ _ => []) dbEmpty [("/a", Value.num 1)]
        ([] : List (ModuleFile String))).1 = Go.ret none ∧
    (callback (fun _ _ => [])
        (callback (fun _ _ => []) dbEmpty [("/a", Value.num 1)]
          ([] : List (ModuleFile String))).2
        [("/a", Value.num 1)] ([] : List (ModuleFile String))).1
      = Go.ret (some (Error.store (StoreErr.writeConflict ["a"]))) ∧
    (callback (fun _ _ => []) dbSeqAtA [("/a/0", emptyObj)]
        ([] : List (ModuleFile String))).1 = Go.ret none ∧
    (Read (callback (fun _ _ => []) dbSeqAtA [("/a/0", emptyObj)]
        ([] : List (ModuleFile String))).2.data ["a", "2"]).isOk = false ∧
    (callback (fun _ _ => [])
        (callback (fun _ _ => []) dbSeqAtA [("/a/0", emptyObj)]
          ([] : List (ModuleFile String))).2
        [("/a/0", emptyObj)] ([] : List (ModuleFile String))).1 = Go.ret none ∧
    (Read (callback (fun _ _ => [])
        (callback (fun _ _ => []) dbSeqAtA [("/a/0", emptyObj)]
          ([] : List (ModuleFile String))).2
        [("/a/0", emptyObj)] ([] : List (ModuleFile String))).2.data ["a", "2"]).isOk = true ∧
    (callback (fun _ _ => []) dbEmpty [("/a", emptyObj), ("/a/b", emptyObj)]
        ([] : List (ModuleFile String))).1 = Go.ret none ∧
    (Read (callback (fun _ _ => []) dbEmpty [("/a", emptyObj), ("/a/b", emptyObj)]
        ([] : List (ModuleFile String))).2.data ["a", "b"]).isOk = true ∧
    (callback (fun _ _ => [])
        (callback (fun _ _ => []) dbEmpty [("/a", emptyObj), ("/a/b", emptyObj)]
          ([] : List (ModuleFile String))).2
        [("/a/b", emptyObj), ("/a", emptyObj)] ([] : List (ModuleFile String))).1
      = Go.ret none ∧
    (Read (callback (fun _ _ => [])
        (callback (fun _ _ => []) dbEmpty [("/a", emptyObj), ("/a/b", emptyObj)]
          ([] : List (ModuleFile String))).2
        [("/a/b", emptyObj), ("/a", emptyObj)] ([] : List (ModuleFile String))).2.data
        ["a", "b"]).isOk = false := by
  decide

/-- **C6 (amended).** When no document's path is a prefix of another's and none
runs through a sequence of the store, and a first commit of the mapping (with
the policy files) succeeds, then committing the same mapping again, in any
visiting order, leaves the store exactly as the first commit left it, for every
kind of document value.  The second commit succeeds when every value is a
mapping, and returns a store error when some value is a scalar or a
sequence. -/
theorem callback_twice {M : Type} (compile : Value → Dict M → List String) (db s₁ : Db)
    (visit visit' : List (String × Value)) (files : List (ModuleFile M))
    (hperm : visit.Perm visit')
    (hapart : visit.Pairwise (fun a b => pathsApart a.1 b.1 = true))
    (hseq : ∀ kv ∈ visit, seqFreeKey db.data kv.1 = true)
    (hfirst : callback compile db visit files = (Go.ret none, s₁)) :
    (callback compile s₁ visit' files).2 = s₁ ∧
    ((∀ kv ∈ visit, kv.2.isObj = true) →
      (callback compile s₁ visit' files).1 = Go.ret none) ∧
    ((∃ kv ∈ visit, kv.2.isObj = false) →
      ∃ se, (callback compile s₁ visit' files).1 = Go.ret (some (Error.store se))) := by
  cases hw : writeData db visit with
  | err e => simp [callback, Txn, hw] at hfirst
  | panic msg => simp [callback, Txn, hw] at hfirst
  | ok t =>
    cases hm : writeModules compile t files with
    | err e => simp [callback, Txn, hw, hm] at hfirst
    | panic msg => simp [callback, Txn, hw, hm] at hfirst
    | ok t' =>
      simp only [callback, Txn, hw, hm, Prod.mk.injEq, true_and] at hfirst
      subst hfirst
      obtain ⟨hc, hups⟩ := writeModules_eq_ok compile t t' files hm
      obtain ⟨u₀, hu₀, hu₀data, hu₀pol⟩ := upsertAll_spec files t
      have ht' : t' = u₀ := by
        rw [hu₀] at hups
        injection hups with h
        exact h.symm
      have hdata : t'.data = t.data := by rw [ht']; exact hu₀data
      have hpol : ∀ p, t'.policies p =
          match lastFile files p with
          | some last => some last.Raw
          | none => t.policies p := by
        intro p
        rw [ht']
        exact hu₀pol p
      -- the documents after the first commit
      have ht := writeData_toOption visit db hapart hseq
      rw [hw] at ht
      simp only [Res.toOption] at ht
      cases hp : putAll db.data visit with
      | none => rw [hp] at ht; simp at ht
      | some d =>
        rw [hp] at ht
        simp only [Option.map_some', Option.some.injEq] at ht
        have htd : t'.data = d := by rw [hdata, ht]
        have hagain := putAll_all_again visit db.data d hapart hp
        have hparse := putAll_parses visit db.data d hp
        have hapart' : visit'.Pairwise (fun a b => pathsApart a.1 b.1 = true) :=
          (List.Perm.pairwise_iff (fun {a b} h => pathsApart_symm a.1 b.1 h) hperm).mp hapart
        have hseq' : ∀ kv ∈ visit', seqFreeKey t'.data kv.1 = true := by
          intro kv hkv
          rw [htd]
          exact putAll_seqFree visit db.data d hapart hp kv (hperm.mem_iff.mpr hkv)
        have hto := writeData_toOption visit' t' hapart' hseq'
        rw [htd] at hto
        -- when every value is a mapping, every round of the second commit changes nothing
        have hsucc : (∀ kv ∈ visit, kv.2.isObj = true) →
            callback compile t' visit' files = (Go.ret none, t') := by
          intro hobj
          have hsecond : putAll d visit' = some d :=
            putAll_of_fixed visit' d (fun kv hkv =>
              (hagain kv (hperm.mem_iff.mpr hkv)).1 (hobj kv (hperm.mem_iff.mpr hkv)))
          have hw' : writeData t' visit' = Res.ok t' := by
            apply Res.eq_ok_of_toOption
            rw [hto, hsecond, ← htd]
            rfl
          have hcompile : compile t'.data (moduleSet files) = [] := by rw [hdata]; exact hc
          obtain ⟨u, hu, hudata, hupol⟩ := upsertAll_spec files t'
          have hut : u = t' := by
            apply Db.eq_of_fields _ _ hudata
            intro p
            rw [hupol p, hpol p]
            cases lastFile files p with
            | none => rfl
            | some last => rfl
          rw [hut] at hu
          simp [callback, Txn, hw', writeModules, hcompile, hu]
        -- when some value is not a mapping, its round of the second commit fails
        have hfail : (∃ kv ∈ visit, kv.2.isObj = false) →
            ∃ se, callback compile t' visit' files = (Go.ret (some (Error.store se)), t') := by
          intro hex
          obtain ⟨kv₀, hkv₀, hno⟩ := hex
          have hsecond : putAll d visit' = none := by
            apply putAll_none_of_failing visit' d
            · intro kv hkv
              have hmem := hperm.mem_iff.mpr hkv
              cases hv : kv.2.isObj with
              | true => exact Or.inl ((hagain kv hmem).1 hv)
              | false => exact Or.inr ((hagain kv hmem).2 hv)
            · exact ⟨kv₀, hperm.mem_iff.mp hkv₀, (hagain kv₀ hkv₀).2 hno⟩
          rw [hsecond] at hto
          cases hw' : writeData t' visit' with
          | ok u => rw [hw'] at hto; simp [Res.toOption] at hto
          | panic msg =>
            obtain ⟨kv, hkv, hnone⟩ := writeData_panic_key visit' t' msg hw'
            have := hparse kv (hperm.mem_iff.mpr hkv)
            rw [hnone] at this
            exact absurd this (by simp)
          | err e =>
            obtain ⟨se, rfl⟩ := writeData_err_is_store visit' t' e hw'
            exact ⟨se, by simp [callback, Txn, hw']⟩
        refine ⟨?_, fun hobj => by rw [hsucc hobj], fun hex => ?_⟩
        · by_cases hobj : ∀ kv ∈ visit, kv.2.isObj = true
          · rw [hsucc hobj]
          · have hex : ∃ kv ∈ visit, kv.2.isObj = false := by
              by_contra hcon
              apply hobj
              intro kv hkv
              cases hv : kv.2.isObj with
              | true => rfl
              | false => exact absurd ⟨kv, hkv, hv⟩ hcon
            obtain ⟨se, hse⟩ := hfail hex
            rw [hse]
        · obtain ⟨se, hse⟩ := hfail hex
          exact ⟨se, by rw [hse]⟩

/-- Witness for C6 (amended).  The mappings at `/cfg/a` and `/cfg/b` with one
policy file, committed again in the other order: the second commit succeeds and
the store is as the first left it.  And the scalar at `/a`: the second commit
returns a store error and the store is as the first left it. -/
theorem callback_twice_witness :
    (∃ s₁, callback (fun _ _ => []) dbEmpty [("/cfg/a", emptyObj), ("/cfg/b", emptyObj)]
        [(⟨"pol1.rego", "package a", "package a"⟩ : ModuleFile String)] = (Go.ret none, s₁) ∧
      (callback (fun _ _ => []) s₁ [("/cfg/b", emptyObj), ("/cfg/a", emptyObj)]
        [(⟨"pol1.rego", "package a", "package a"⟩ : ModuleFile String)]).2 = s₁ ∧
      (callback (fun _ _ => []) s₁ [("/cfg/b", emptyObj), ("/cfg/a", emptyObj)]
        [(⟨"pol1.rego", "package a", "package a"⟩ : ModuleFile String)]).1 = Go.ret none) ∧
    (∃ s₁, callback (fun _ _ => []) dbEmpty [("/a", Value.num 1)]
        ([] : List (ModuleFile String)) = (Go.ret none, s₁) ∧
      (callback (fun _ _ => []) s₁ [("/a", Value.num 1)]
        ([] : List (ModuleFile String))).2 = s₁ ∧
      ∃ se, (callback (fun _ _ => []) s₁ [("/a", Value.num 1)]
        ([] : List (ModuleFile String))).1 = Go.ret (some (Error.store se))) :=
  ⟨⟨_, rfl,
      (callback_twice (fun _ _ => []) dbEmpty _
        [("/cfg/a", emptyObj), ("/cfg/b", emptyObj)] [("/cfg/b", emptyObj), ("/cfg/a", emptyObj)]
        [(⟨"pol1.rego", "package a", "package a"⟩ : ModuleFile String)]
        (List.Perm.swap _ _ _) (by decide) (by decide) rfl).1,
      (callback_twice (fun _ _ => []) dbEmpty _
        [("/cfg/a", emptyObj), ("/cfg/b", emptyObj)] [("/cfg/b", emptyObj), ("/cfg/a", emptyObj)]
        [(⟨"pol1.rego", "package a", "package a"⟩ : ModuleFile String)]
        (List.Perm.swap _ _ _) (by decide) (by decide) rfl).2.1 (by decide)⟩,
    ⟨_, rfl,
      (callback_twice (fun _ _ => []) dbEmpty _ [("/a", Value.num 1)] [("/a", Value.num 1)]
        ([] : List (ModuleFile String)) (List.Perm.refl _) (by decide) (by decide) rfl).1,
      (callback_twice (fun _ _ => []) dbEmpty _ [("/a", Value.num 1)] [("/a", Value.num 1)]
        ([] : List (ModuleFile String)) (List.Perm.refl _) (by decide) (by decide) rfl).2.2
        ⟨("/a", Value.num 1), List.mem_cons_self _ _, rfl⟩⟩⟩

end Ldap
